import Mathlib

/-!
Shallow embedding of the core of the recipebox HTTP server (Rust), together
with theorems settling the frozen claims about it.

Conventions of the embedding:
- Rust byte strings (and Rust String values, which are only ever handled as
  their underlying bytes here) are modelled as List Nat, one entry per byte.
- Readers are modelled after the test reader of the repository (MockReader
  wrapped in a BufReader): a queue of byte chunks; each chunk is what one
  read call of the underlying stream delivers.  An exhausted queue yields
  WouldBlock when blockWhenEmpty is set, and end of file otherwise; an empty
  chunk signals end of file, exactly as in MockReader.
- The error_take wrappers (src/parse/error_take.rs) are modelled as a stack
  of remaining-byte limits carried inside the reader: a parse call pushes its
  budget, every consumed byte decrements all limits on the stack, a fill or
  read attempted while some limit is zero fails with limitReached, and the
  data made available by a fill is truncated to the smallest limit.  This is
  exactly the behaviour of nested ErrorTake(Take(..)) wrappers over one
  BufReader.
- Loops whose iteration count depends on the data are given explicit fuel
  and return none when the fuel runs out; theorems about results therefore
  quantify over the fuel.  UTF-8 validation of read_line is not modelled:
  all inputs appearing in the theorems below are ASCII, and validation
  cannot affect any successfully parsed value.
-/

namespace RecipeBox

/-- Bytes of an ASCII string literal. -/
def str2bytes (s : String) : List Nat := s.toList.map Char.toNat

/-- ASCII lowercasing of one byte, as in make_ascii_lowercase. -/
def lowerByte (b : Nat) : Nat := if 65 ≤ b ∧ b ≤ 90 then b + 32 else b

/-- ASCII lowercasing of a byte string. -/
def lowerBytes (s : List Nat) : List Nat := s.map lowerByte

/-- The IO error kinds the parsing layer distinguishes. -/
inductive IoErr where
  | wouldBlock
  | unexpectedEof
  | limitReached
  | connAborted
deriving DecidableEq, Repr

/-- The parsing errors of src/parse/error.rs. -/
inductive ParsingError where
  | badSyntax
  | invalidHttpVersion
  | invalidHeaderValue
  | invalidChunkSize
  | contentLengthTooLarge
  | unrecognizedMethod
  | invalidUtf8
deriving DecidableEq, Repr

/-- A buffered reader with a stack of error_take limits on top.
The chunks are the successive results of reads of the underlying stream;
an empty chunk is an end-of-file signal, and an exhausted chunk list
either blocks (blockWhenEmpty) or signals end of file. -/
structure Rd where
  limits : List Nat
  chunks : List (List Nat)
  blockWhenEmpty : Bool
deriving DecidableEq, Repr

/-- Total number of data bytes the reader still holds. -/
def Rd.bytes (r : Rd) : Nat := (r.chunks.map List.length).sum

/-- Push an error_take budget onto the reader (reader.error_take(limit)). -/
def Rd.push (l : Nat) (r : Rd) : Rd := { r with limits := l :: r.limits }

/-- Drop the outermost error_take wrapper again. -/
def Rd.pop (r : Rd) : Rd := { r with limits := r.limits.tail }

/-- How many bytes a fill may deliver: the chunk truncated by every limit. -/
def availLen (limits : List Nat) (n : Nat) : Nat := limits.foldr min n

/-- Consuming amt bytes decrements every limit on the stack (Take::consume). -/
def decLimits (limits : List Nat) (amt : Nat) : List Nat := limits.map (fun l => l - amt)

/-- Outcome of one read_line call (std read_until): ok covers both a found
newline and end of file; blocked is WouldBlock; limitHit is the
read-limit-reached error of an ErrorTake wrapper. -/
inductive LineOut where
  | ok
  | blocked
  | limitHit
deriving DecidableEq, Repr

/-- Split the available bytes at the first newline, as memchr does inside
std read_until: the part up to and including the newline, the rest, and
whether a newline was found. -/
def takeLine : List Nat → (List Nat × List Nat × Bool)
  | [] => ([], [], false)
  | b :: rest =>
    if b = 10 then ([10], rest, true)
    else
      match takeLine rest with
      | (t, r, f) => (b :: t, r, f)

/-- One reader.read_line(line) call as performed by LineDeframer::read:
the loop of std read_until over fill_buf and consume, through the stack of
error_take limits.  Returns the new accumulated line, the new limits, the
remaining chunks and the classification of the result. -/
def readLineAux : List Nat → List Nat → List (List Nat) → Bool →
    (List Nat × List Nat × List (List Nat) × LineOut)
  | acc, limits, [], blk =>
    if 0 ∈ limits then (acc, limits, [], .limitHit)
    else if blk then (acc, limits, [], .blocked) else (acc, limits, [], .ok)
  | acc, limits, c :: rest, blk =>
    if 0 ∈ limits then (acc, limits, c :: rest, .limitHit)
    else if c = [] then (acc, limits, rest, .ok)
    else
      let avail := c.take (availLen limits c.length)
      match takeLine avail with
      | (t, _, true) =>
        let rem := c.drop t.length
        (acc ++ t, decLimits limits t.length,
          if rem = [] then rest else rem :: rest, .ok)
      | (_, _, false) =>
        if avail.length < c.length then
          (acc ++ avail, decLimits limits avail.length, c.drop avail.length :: rest, .limitHit)
        else
          readLineAux (acc ++ c) (decLimits limits c.length) rest blk

/-- Result of a deframer read (src/parse/deframe/deframe.rs): either the
finished value or the deframer state together with the IO error. -/
inductive DfRes (T S : Type) where
  | done (v : T) (r : Rd)
  | ioErr (st : S) (e : IoErr) (r : Rd)
deriving DecidableEq, Repr

/-- LineDeframer::read: one read_line call, then pop the last character and
require it to be a newline; end of file before a newline pops whatever
character is last (this mutation is faithful to the source) and reports
UnexpectedEof. -/
def lineDeframerRead (line : List Nat) (r : Rd) : DfRes (List Nat) (List Nat) :=
  match readLineAux line r.limits r.chunks r.blockWhenEmpty with
  | (acc, limits, chunks, res) =>
    let r' : Rd := { limits := limits, chunks := chunks, blockWhenEmpty := r.blockWhenEmpty }
    match res with
    | .ok =>
      if acc.getLast? = some 10 then .done acc.dropLast r'
      else .ioErr acc.dropLast .unexpectedEof r'
    | .blocked => .ioErr acc .wouldBlock r'
    | .limitHit => .ioErr acc .limitReached r'

/-- Result of a parse call (src/parse/parse.rs): Done, suspended with an IO
error, or failed with a parsing error.  The reader is returned in all three
cases because the Rust code mutates it through a reference. -/
inductive PRes (T S : Type) where
  | done (v : T) (r : Rd)
  | ioErr (st : S) (e : IoErr) (r : Rd)
  | fail (e : ParsingError) (r : Rd)
deriving DecidableEq, Repr

/-- parse_crlf_line: pop the final character, require it to be CR. -/
def parseCrlfLine (line : List Nat) : Except ParsingError (List Nat) :=
  if line.getLast? = some 13 then .ok line.dropLast else .error .badSyntax

/-- Maximum size of one CRLF line (src/parse/crlf_line.rs). -/
def MAX_LINE_SIZE : Nat := 512

/-- CrlfLineParser::parse: wrap the reader in an error_take with budget
512 minus the bytes read so far, run the line deframer, then strip the CR. -/
def crlfParse (st : List Nat) (r : Rd) : PRes (List Nat) (List Nat) :=
  match lineDeframerRead st (r.push (MAX_LINE_SIZE - st.length)) with
  | .done line r' =>
    match parseCrlfLine line with
    | .ok v => .done v r'.pop
    | .error e => .fail e r'.pop
  | .ioErr st' e r' => .ioErr st' e r'.pop

/-- The fixed table of standard header names (src/common/header.rs),
lowercased, in source order. -/
def standardHeaderNames : List (List Nat) :=
  [ "accept", "accept-charset", "accept-encoding", "accept-language",
    "accept-ranges", "access-control-allow-credentials",
    "access-control-allow-headers", "access-control-allow-methods",
    "access-control-allow-origin", "access-control-expose-headers",
    "access-control-max-age", "access-control-request-headers",
    "access-control-request-method", "age", "allow", "alt-svc",
    "authorization", "cache-control", "connection", "content-disposition",
    "content-encoding", "content-language", "content-length",
    "content-location", "content-range", "content-security-policy",
    "content-security-policy-report-only", "content-type", "cookie", "dnt",
    "date", "etag", "expect", "expires", "forwarded", "from", "host",
    "if-match", "if-modified-since", "if-none-match", "if-range",
    "if-unmodified-since", "last-modified", "link", "location",
    "max-forwards", "origin", "pragma", "proxy-authenticate",
    "proxy-authorization", "public-key-pins", "public-key-pins-report-only",
    "range", "referer", "referrer-policy", "refresh", "retry-after",
    "sec-websocket-accept", "sec-websocket-extensions", "sec-websocket-key",
    "sec-websocket-protocol", "sec-websocket-version", "server",
    "set-cookie", "strict-transport-security", "te", "trailer",
    "transfer-encoding", "user-agent", "upgrade",
    "upgrade-insecure-requests", "vary", "via", "warning",
    "www-authenticate", "x-content-type-options", "x-dns-prefetch-control",
    "x-frame-options", "x-xss-protection" ].map str2bytes

/-- A header name: either an interned standard name or a custom one
(src/common/header.rs).  Equality is the derived structural equality,
exactly like the derived PartialEq of the source. -/
inductive Header where
  | standard (name : List Nat)
  | custom (name : List Nat)
deriving DecidableEq, Repr

/-- Header::as_str. -/
def Header.asStr : Header → List Nat
  | .standard s => s
  | .custom s => s

/-- The byte sequence the derived Hash implementation feeds to the hasher:
the variant discriminant followed by the name bytes.  Two header values
hash identically exactly when these sequences coincide. -/
def Header.hashFeed : Header → List Nat
  | .standard s => 0 :: s
  | .custom s => 1 :: s

/-- From(String) for Header: lowercase in place, return the interned
standard variant on a table hit and a custom name otherwise. -/
def Header.fromBytes (value : List Nat) : Header :=
  let l := lowerBytes value
  if l ∈ standardHeaderNames then .standard l else .custom l

/-- The interned content-length header. -/
def CONTENT_LENGTH : Header := .standard (str2bytes "content-length")

/-- The interned transfer-encoding header. -/
def TRANSFER_ENCODING : Header := .standard (str2bytes "transfer-encoding")

/-- The interned connection header. -/
def CONNECTION : Header := .standard (str2bytes "connection")

/-- HeaderMap: a multimap from header names to lists of values.  The source
uses a HashMap with unique keys and unspecified key order; the model keeps
one entry per key, new keys appended at the end. -/
def HeaderMap : Type := List (Header × List (List Nat))

instance : DecidableEq HeaderMap := by unfold HeaderMap; infer_instance

instance : Repr HeaderMap := by unfold HeaderMap; infer_instance

/-- HeaderMapOps::add_header: push the value onto the entry of the key,
creating the entry if absent. -/
def addHeader (m : HeaderMap) (k : Header) (v : List Nat) : HeaderMap :=
  match m with
  | [] => [(k, [v])]
  | (k', vs) :: rest => if k' = k then (k', vs ++ [v]) :: rest else (k', vs) :: addHeader rest k v

/-- HeaderMapOps::get_first_header_value. -/
def getFirstHeaderValue (m : HeaderMap) (k : Header) : Option (List Nat) :=
  match m with
  | [] => none
  | (k', vs) :: rest => if k' = k then vs.head? else getFirstHeaderValue rest k

/-- HeaderMapOps::contains_header_value. -/
def containsHeaderValue (m : HeaderMap) (k : Header) (v : List Nat) : Bool :=
  match m with
  | [] => false
  | (k', vs) :: rest => if k' = k then vs.contains v else containsHeaderValue rest k v

/-- Maximum cumulative size of headers (src/parse/headers.rs). -/
def MAX_HEADERS_SIZE : Nat := 4096

/-- State of the headers parser: the current line parser, the headers read
so far and the cumulative size of the completed stripped header lines. -/
structure HState where
  inner : List Nat
  headers : HeaderMap
  read : Nat
deriving DecidableEq, Repr

/-- A fresh headers parser (HeadersParser::new). -/
def HState.new : HState := { inner := [], headers := [], read := 0 }

/-- parse_header: split the line at the first colon-space into name and
value; without a colon-space the line is BadSyntax.  The name is
canonicalised through the standard table. -/
def splitHeaderLine : List Nat → Option (List Nat × List Nat)
  | 58 :: 32 :: rest => some ([], rest)
  | b :: rest => (splitHeaderLine rest).map fun p => (b :: p.1, p.2)
  | [] => none

/-- parse_header (src/parse/headers.rs). -/
def parseHeader (raw : List Nat) : Except ParsingError (Header × List Nat) :=
  match splitHeaderLine raw with
  | some (name, value) => .ok (Header.fromBytes name, value)
  | none => .error .badSyntax

/-- The loop of HeadersParser::parse: parse CRLF lines until an empty line,
accumulating headers; the error_take wrapper of the call has already been
pushed by headersParse.  The finished value also carries the final
cumulative read counter so that theorems can speak about it. -/
def headersLoop : Nat → HeaderMap → Nat → List Nat → Rd →
    Option (PRes (HeaderMap × Nat) HState)
  | 0, _, _, _, _ => none
  | fuel + 1, headers, read, inner, r =>
    match crlfParse inner r with
    | .done line r' =>
      if line = [] then some (.done (headers, read) r')
      else
        match parseHeader line with
        | .ok (h, v) => headersLoop fuel (addHeader headers h v) (read + line.length) [] r'
        | .error e => some (.fail e r')
    | .ioErr st e r' => some (.ioErr { inner := st, headers := headers, read := read } e r')
    | .fail e r' => some (.fail e r')

/-- HeadersParser::parse: wrap the reader in an error_take with budget
4096 minus the cumulative completed-line size, then run the loop. -/
def headersParse (fuel : Nat) (st : HState) (r : Rd) : Option (PRes (HeaderMap × Nat) HState) :=
  match headersLoop fuel st.headers st.read st.inner (r.push (MAX_HEADERS_SIZE - st.read)) with
  | some (.done v r') => some (.done v r'.pop)
  | some (.ioErr st' e r') => some (.ioErr st' e r'.pop)
  | some (.fail e r') => some (.fail e r'.pop)
  | none => none

/-- One reader.read(buf) call with a buffer of the given free length,
through the limit stack (ErrorTake::read over Take::read over the buffered
reader): fails if some limit is exhausted, otherwise delivers up to
min(buffer length, limits) bytes of the current chunk; an empty fill is an
end-of-file signal delivering zero bytes. -/
def etRead (bufLen : Nat) (r : Rd) : Except IoErr (List Nat × Rd) :=
  if 0 ∈ r.limits then .error .limitReached
  else
    match r.chunks with
    | [] => if r.blockWhenEmpty then .error .wouldBlock else .ok ([], r)
    | c :: rest =>
      if c = [] then .ok ([], { r with chunks := rest })
      else
        let n := min (availLen r.limits bufLen) c.length
        let rem := c.drop n
        .ok (c.take n,
          { r with limits := decLimits r.limits n,
                   chunks := if rem = [] then rest else rem :: rest })

/-- BytesDeframer state: the declared size and the bytes read so far.  The
source owns a pre-sized zero vector and a fill position; its content always
equals the bytes read so far padded with zeros, so the model keeps the
bytes directly. -/
structure BytesDf where
  size : Nat
  got : List Nat
deriving DecidableEq, Repr

/-- BytesDeframer::read_so_far returns data.len(), which is the declared
size, not the fill position.  The model reproduces this faithfully. -/
def BytesDf.readSoFar (d : BytesDf) : Nat := d.size

/-- BytesDeframer::read: read into the unfilled tail until the buffer is
full; a zero-byte read with an unfilled tail is UnexpectedEof. -/
def bytesRead : Nat → BytesDf → Rd → Option (DfRes (List Nat) BytesDf)
  | 0, _, _ => none
  | fuel + 1, d, r =>
    if d.got.length < d.size then
      match etRead (d.size - d.got.length) r with
      | .ok ([], r') => some (.ioErr d .unexpectedEof r')
      | .ok (bs, r') => bytesRead fuel { d with got := d.got ++ bs } r'
      | .error e => some (.ioErr d e r)
    else
      some (.done d.got r)

/-- BytesUntilEofDeframer state: the bytes accumulated so far. -/
def untilEofRead : Nat → List Nat → Rd → Option (DfRes (List Nat) (List Nat))
  | 0, _, _ => none
  | fuel + 1, data, r =>
    match etRead (MAX_LINE_SIZE + 1) r with
    | .ok ([], r') => some (.done data r')
    | .ok (bs, r') => untilEofRead fuel (data ++ bs) r'
    | .error e => some (.ioErr data e r)

/-- Maximum size of a body (src/parse/body.rs). -/
def MAX_BODY_SIZE : Nat := 3 * 1024 * 1024

/-- A hexadecimal digit value, as accepted by from_str_radix(-, 16). -/
def hexDigit? (b : Nat) : Option Nat :=
  if 48 ≤ b ∧ b ≤ 57 then some (b - 48)
  else if 97 ≤ b ∧ b ≤ 102 then some (b - 87)
  else if 65 ≤ b ∧ b ≤ 70 then some (b - 55)
  else none

/-- Digits of a nonempty hexadecimal numeral folded into a value. -/
def hexFold : List Nat → Option Nat → Option Nat
  | [], acc => acc
  | b :: rest, acc =>
    match hexDigit? b, acc with
    | some d, some a => hexFold rest (some (a * 16 + d))
    | some d, none => hexFold rest (some d)
    | none, _ => none

/-- usize::from_str_radix(raw, 16): an optional leading plus sign followed
by at least one hexadecimal digit. -/
def parseHexNat (raw : List Nat) : Option Nat :=
  match raw with
  | 43 :: rest => if rest = [] then none else hexFold rest none
  | _ => if raw = [] then none else hexFold raw none

/-- A decimal digit value. -/
def decDigit? (b : Nat) : Option Nat :=
  if 48 ≤ b ∧ b ≤ 57 then some (b - 48) else none

/-- Digits of a nonempty decimal numeral folded into a value. -/
def decFold : List Nat → Option Nat → Option Nat
  | [], acc => acc
  | b :: rest, acc =>
    match decDigit? b, acc with
    | some d, some a => decFold rest (some (a * 10 + d))
    | some d, none => decFold rest (some d)
    | none, _ => none

/-- str::parse::<usize>: an optional leading plus sign followed by at least
one decimal digit; a minus sign or any other byte fails. -/
def parseDecNat (raw : List Nat) : Option Nat :=
  match raw with
  | 43 :: rest => if rest = [] then none else decFold rest none
  | _ => if raw = [] then none else decFold raw none

/-- parse_chunk_size: hexadecimal parse, then the 3 MiB bound. -/
def parseChunkSize (raw : List Nat) : Except ParsingError Nat :=
  match parseHexNat raw with
  | none => .error .invalidChunkSize
  | some n => if n > MAX_BODY_SIZE then .error .invalidChunkSize else .ok n

/-- The state of the chunked-body parser (src/parse/body.rs, mod chunked). -/
inductive ChState where
  | size (cst : List Nat)
  | data (d : BytesDf)
  | tailingCrlf (cst : List Nat) (isLast : Bool)
  | finished
deriving DecidableEq, Repr

/-- Full chunked-parser state: the accumulated body, the declared sizes of
the chunks whose size lines have been parsed so far (a ghost field the
source does not store; everything else is as in the source) and the state. -/
structure ChunksSt where
  body : List Nat
  sizes : List Nat
  st : ChState
deriving DecidableEq, Repr

/-- A fresh chunked parser (ChunksParser::new). -/
def ChunksSt.new : ChunksSt := { body := [], sizes := [], st := .size [] }

/-- The loop of ChunksParser::parse over the size, data, tailing-CRLF and
finished states. -/
def chunksLoop : Nat → ChunksSt → Rd → Option (PRes (List Nat × List Nat) ChunksSt)
  | 0, _, _ => none
  | fuel + 1, cs, r =>
    match cs.st with
    | .size cst =>
      match crlfParse cst r with
      | .done raw r' =>
        match parseChunkSize raw with
        | .ok n => chunksLoop fuel { cs with sizes := cs.sizes ++ [n], st := .data ⟨n, []⟩ } r'
        | .error e => some (.fail e r')
      | .ioErr st' e r' => some (.ioErr { cs with st := .size st' } e r')
      | .fail e r' => some (.fail e r')
    | .data d =>
      match bytesRead (fuel + 1) d r with
      | some (.done bytes r') =>
        chunksLoop fuel
          { cs with body := cs.body ++ bytes, st := .tailingCrlf [] (bytes = []) } r'
      | some (.ioErr d' e r') => some (.ioErr { cs with st := .data d' } e r')
      | none => none
    | .tailingCrlf cst isLast =>
      match crlfParse cst r with
      | .done line r' =>
        if line = [] then
          chunksLoop fuel { cs with st := if isLast then .finished else .size [] } r'
        else some (.fail .badSyntax r')
      | .ioErr st' e r' => some (.ioErr { cs with st := .tailingCrlf st' isLast } e r')
      | .fail e r' => some (.fail e r')
    | .finished => some (.done (cs.body, cs.sizes) r)

/-- BodyParser (src/parse/body.rs): the four body modes. -/
inductive BodyParser where
  | withSize (d : BytesDf)
  | untilEof (data : List Nat)
  | chunked (cs : ChunksSt)
  | empty
deriving DecidableEq, Repr

/-- get_content_length: the first content-length value, parsed as usize,
a failed parse becoming InvalidHeaderValue. -/
def getContentLength (headers : HeaderMap) : Option (Except ParsingError Nat) :=
  (getFirstHeaderValue headers CONTENT_LENGTH).map fun v =>
    match parseDecNat v with
    | some n => .ok n
    | none => .error .invalidHeaderValue

/-- is_chunked_transfer_encoding: the first transfer-encoding value
contains the substring chunked. -/
def isChunkedTransferEncoding (headers : HeaderMap) : Bool :=
  match getFirstHeaderValue headers TRANSFER_ENCODING with
  | some v => decide (str2bytes "chunked" <:+: v)
  | none => false

/-- BodyParser::new: classify the body mode from the headers. -/
def BodyParser.new (headers : HeaderMap) (readIfNoContentLength : Bool) :
    Except ParsingError BodyParser :=
  match getContentLength headers with
  | some r =>
    match r with
    | .ok size =>
      if size > MAX_BODY_SIZE then .error .contentLengthTooLarge
      else .ok (.withSize ⟨size, []⟩)
    | .error e => .error e
  | none =>
    if isChunkedTransferEncoding headers then .ok (.chunked ChunksSt.new)
    else if readIfNoContentLength then .ok (.untilEof [])
    else .ok .empty

/-- BodyParser::read_so_far, dispatching to the deframers. -/
def BodyParser.readSoFar : BodyParser → Nat
  | .withSize d => d.readSoFar
  | .untilEof data => data.length
  | .chunked cs => cs.body.length
  | .empty => 0

/-- BodyParser::parse: wrap the reader in an error_take with budget 3 MiB
minus read_so_far, then run the mode.  The finished value of the chunked
mode also carries the ghost list of declared sizes. -/
def bodyParse (fuel : Nat) (bp : BodyParser) (r : Rd) :
    Option (PRes (List Nat × List Nat) BodyParser) :=
  let r1 := r.push (MAX_BODY_SIZE - bp.readSoFar)
  match bp with
  | .withSize d =>
    match bytesRead fuel d r1 with
    | some (.done v r') => some (.done (v, []) r'.pop)
    | some (.ioErr d' e r') => some (.ioErr (.withSize d') e r'.pop)
    | none => none
  | .untilEof data =>
    match untilEofRead fuel data r1 with
    | some (.done v r') => some (.done (v, []) r'.pop)
    | some (.ioErr data' e r') => some (.ioErr (.untilEof data') e r'.pop)
    | none => none
  | .chunked cs =>
    match chunksLoop fuel cs r1 with
    | some (.done v r') => some (.done v r'.pop)
    | some (.ioErr cs' e r') => some (.ioErr (.chunked cs') e r'.pop)
    | some (.fail e r') => some (.fail e r'.pop)
    | none => none
  | .empty => some (.done ([], []) r1.pop)

/-- Methods (src/common/method.rs). -/
inductive Method where
  | GET
  | POST
  | DELETE
  | PUT
deriving DecidableEq, Repr

/-- Method::try_from_str, case sensitive. -/
def Method.tryFromStr (s : List Nat) : Option Method :=
  if s = str2bytes "GET" then some .GET
  else if s = str2bytes "POST" then some .POST
  else if s = str2bytes "DELETE" then some .DELETE
  else if s = str2bytes "PUT" then some .PUT
  else none

/-- version::is_supported: only the two literals. -/
def isSupportedVersion (s : List Nat) : Bool :=
  s = str2bytes "HTTP/1.1" ∨ s = str2bytes "HTTP/1.0"

/-- str::split(' '): split at every space byte, keeping empty pieces. -/
def splitOnSpace : List Nat → List (List Nat)
  | [] => [[]]
  | 32 :: rest => [] :: splitOnSpace rest
  | b :: rest =>
    match splitOnSpace rest with
    | h :: t => (b :: h) :: t
    | [] => [[b]]

/-- parse_first_line (src/parse/request.rs): take the first three
space-separated tokens as method, target and version; verify the version,
then the method; everything after the third token is ignored. -/
def parseFirstLine (line : List Nat) : Except ParsingError (Method × List Nat) :=
  match splitOnSpace line with
  | m :: uri :: v :: _ =>
    if isSupportedVersion v then
      match Method.tryFromStr m with
      | some meth => .ok (meth, uri)
      | none => .error .unrecognizedMethod
    else .error .invalidHttpVersion
  | _ => .error .badSyntax

/-- FirstLineParser::parse: a CRLF line fed to parse_first_line. -/
def firstLineParse (st : List Nat) (r : Rd) : PRes (Method × List Nat) (List Nat) :=
  match crlfParse st r with
  | .done line r' =>
    match parseFirstLine line with
    | .ok v => .done v r'
    | .error e => .fail e r'
  | .ioErr st' e r' => .ioErr st' e r'
  | .fail e r' => .fail e r'

/-- The state of the message parser (src/parse/message.rs), specialised to
the request first line. -/
inductive MPState where
  | firstLine (st : List Nat)
  | headers (fl : Method × List Nat) (st : HState)
  | body (fl : Method × List Nat) (hm : HeaderMap) (bp : BodyParser)
  | finished (fl : Method × List Nat) (hm : HeaderMap) (bodyBytes : List Nat)
deriving DecidableEq, Repr

/-- A parsed request (src/common/request.rs). -/
structure Request where
  method : Method
  uri : List Nat
  headers : HeaderMap
  body : List Nat
deriving DecidableEq, Repr

/-- The loop of MessageParser::parse over the four states. -/
def messageLoop : Nat → MPState → Bool → Rd → Option (PRes Request MPState)
  | 0, _, _, _ => none
  | fuel + 1, st, readFlag, r =>
    match st with
    | .firstLine fst =>
      match firstLineParse fst r with
      | .done fl r' => messageLoop fuel (.headers fl HState.new) readFlag r'
      | .ioErr st' e r' => some (.ioErr (.firstLine st') e r')
      | .fail e r' => some (.fail e r')
    | .headers fl hst =>
      match headersParse (fuel + 1) hst r with
      | some (.done (hm, _) r') =>
        match BodyParser.new hm readFlag with
        | .ok bp => messageLoop fuel (.body fl hm bp) readFlag r'
        | .error e => some (.fail e r')
      | some (.ioErr st' e r') => some (.ioErr (.headers fl st') e r')
      | some (.fail e r') => some (.fail e r')
      | none => none
    | .body fl hm bp =>
      match bodyParse (fuel + 1) bp r with
      | some (.done (bodyBytes, _) r') => messageLoop fuel (.finished fl hm bodyBytes) readFlag r'
      | some (.ioErr bp' e r') => some (.ioErr (.body fl hm bp') e r')
      | some (.fail e r') => some (.fail e r')
      | none => none
    | .finished fl hm bodyBytes =>
      some (.done { method := fl.1, uri := fl.2, headers := hm, body := bodyBytes } r)

/-- A fresh request parser (RequestParser::new). -/
def RequestParser.new : MPState := .firstLine []

/-- RequestParser::parse: the message parser with the request first line
and read_body_if_no_content_length set to false. -/
def requestParse (fuel : Nat) (st : MPState) (r : Rd) : Option (PRes Request MPState) :=
  messageLoop fuel st false r

/-- RequestParser::has_data: true unless the parser still sits in the
first-line state with a line deframer that reports zero bytes read. -/
def hasData : MPState → Bool
  | .firstLine st => st.length > 0
  | _ => true

/-- The slab (src/server/slab.rs): a backing array of optional slots and
the queue of open slot indices (a VecDeque; its front is the list head). -/
structure Slab (T : Type) where
  data : List (Option T)
  openSlots : List Nat
deriving DecidableEq, Repr

/-- Slab::with_capacity: capacity only preallocates; the slab starts empty. -/
def Slab.withCapacity (T : Type) : Slab T := { data := [], openSlots := [] }

/-- Slab::next_key: the front of the open-slot queue, or the array length. -/
def Slab.nextKey (s : Slab T) : Nat := s.openSlots.head?.getD s.data.length

/-- Slab::insert: pop the front open slot if any, else append; returns the
key together with the new slab. -/
def Slab.insert (s : Slab T) (x : T) : Nat × Slab T :=
  match s.openSlots with
  | i :: rest => (i, { data := s.data.set i (some x), openSlots := rest })
  | [] => (s.data.length, { data := s.data ++ [some x], openSlots := [] })

/-- Slab::get. -/
def Slab.get (s : Slab T) (k : Nat) : Option T := s.data[k]?.bind id

/-- Slab::remove: take the value out and push the key onto the FRONT of the
open-slot queue (push_front in the source); absent or empty keys are
no-ops returning none. -/
def Slab.remove (s : Slab T) (k : Nat) : Option T × Slab T :=
  match s.data[k]? with
  | some (some v) => (some v, { data := s.data.set k none, openSlots := k :: s.openSlots })
  | _ => (none, s)

/-- One result of a write call of the inner writer: accept up to n bytes,
or fail with WouldBlock.  A list of these plays the role of the socket. -/
inductive WRes where
  | accept (n : Nat)
  | block
deriving DecidableEq, Repr

/-- write_until_blocked (src/server/nonblocking_buf_writer.rs): loop
calling inner.write until the buffer is written or the writer blocks;
returns the number of bytes written and the remaining oracle.  An
exhausted oracle behaves like WouldBlock. -/
def writeUntilBlocked : Nat → List WRes → Nat → Nat → Option (Nat × List WRes)
  | 0, _, _, _ => none
  | fuel + 1, oracle, len, pos =>
    if pos = len then some (pos, oracle)
    else
      match oracle with
      | [] => some (pos, [])
      | .accept n :: rest => writeUntilBlocked fuel rest len (pos + min n (len - pos))
      | .block :: rest => some (pos, rest)

/-- The non-blocking buffered writer: the buffer, the position of the first
pending byte, the buffer capacity and the bytes delivered to the inner
writer so far. -/
structure NBW where
  buf : List Nat
  pos : Nat
  cap : Nat
  out : List Nat
deriving DecidableEq, Repr

/-- NonBlockingBufWriter::with_capacity. -/
def NBW.withCapacity (cap : Nat) : NBW := { buf := [], pos := 0, cap := cap, out := [] }

/-- The pending bytes, buf from pos on. -/
def NBW.pending (w : NBW) : List Nat := w.buf.drop w.pos

/-- flush_buf: write buf from pos on until blocked, advance pos, and clear
the buffer when everything was flushed. -/
def flushBuf (fuel : Nat) (oracle : List WRes) (w : NBW) : Option (NBW × List WRes) :=
  match writeUntilBlocked fuel oracle w.pending.length 0 with
  | some (amount, oracle') =>
    let out' := w.out ++ w.pending.take amount
    let pos' := w.pos + amount
    if pos' ≥ w.buf.length then
      some ({ w with buf := [], pos := 0, out := out' }, oracle')
    else
      some ({ w with pos := pos', out := out' }, oracle')
  | none => none

/-- Vec growth when appending m bytes: amortized doubling, at least the
required length. -/
def growCap (cap len : Nat) : Nat := if len ≤ cap then cap else max (2 * cap) len

/-- Write::write for NonBlockingBufWriter: flush when the new data does not
fit; if the buffer position is then zero and the data is larger than the
whole capacity, write it through directly and keep only the unwritten
remainder; finally append to the buffer.  Returns the writer, the oracle
and the logical write length. -/
def nbwWrite (fuel : Nat) (oracle : List WRes) (w : NBW) (b : List Nat) :
    Option (NBW × List WRes × Nat) := do
  let (w1, oracle1, b1) ←
    if w.buf.length + b.length > w.cap then do
      let (wf, oraclef) ← flushBuf fuel oracle w
      if wf.pos = 0 ∧ b.length > wf.cap then do
        let (amount, oracled) ← writeUntilBlocked fuel oraclef b.length 0
        pure ({ wf with out := wf.out ++ b.take amount }, oracled, b.drop amount)
      else
        pure (wf, oraclef, b)
    else
      pure (w, oracle, b)
  let buf' := w1.buf ++ b1
  pure ({ w1 with buf := buf', cap := growCap w1.cap buf'.length }, oracle1, b.length)

/-- Write::flush for NonBlockingBufWriter: flush_buf, then the inner flush
(which translates WouldBlock to success and moves no bytes). -/
def nbwFlush (fuel : Nat) (oracle : List WRes) (w : NBW) : Option (NBW × List WRes) :=
  flushBuf fuel oracle w

/-- A response status (src/common/status.rs). -/
structure Status where
  code : Nat
  reason : List Nat
deriving DecidableEq, Repr

/-- A response (src/common/response.rs). -/
structure Response where
  status : Status
  headers : HeaderMap
  body : List Nat
deriving DecidableEq, Repr

/-- The result of a request listener (src/server/router.rs). -/
inductive ListenerResult where
  | next
  | sendResponse (r : Response)
  | sendResponseArc (r : Response)
deriving DecidableEq, Repr

/-- A router: the ordered list of registered entries, each a URI and a
listener function. -/
abbrev Router : Type := List (List Nat × (List Nat → Request → ListenerResult))

/-- Router::new. -/
def Router.new : Router := []

/-- Router::on_prefix: append an entry. -/
def Router.onPre (r : Router) (uri : List Nat)
    (listener : List Nat → Request → ListenerResult) : Router :=
  r ++ [(uri, listener)]

/-- Router::result_internal: iterate the entries in registration order,
keep those whose URI is a prefix of the request URI, invoke each in order
and return the first result that is not Next; otherwise Next. -/
def Router.resultInternal (r : Router) (requestUri : List Nat) (req : Request) :
    ListenerResult :=
  match r with
  | [] => .next
  | (uri, listener) :: rest =>
    if uri.isPrefixOf requestUri then
      match listener requestUri req with
      | .next => Router.resultInternal rest requestUri req
      | res => res
    else
      Router.resultInternal rest requestUri req

/-- Router::on: register under the empty URI a listener that first checks
that the local URI equals the given one. -/
def Router.on (r : Router) (uri : List Nat)
    (listener : List Nat → Request → ListenerResult) : Router :=
  r.onPre [] fun routerUri request =>
    if uri = routerUri then listener routerUri request else .next

/-- Router::route: register under the given URI a listener that strips the
URI from the front of the request URI and dispatches to the sub router. -/
def Router.route (r : Router) (uri : List Nat) (sub : Router) : Router :=
  r.onPre uri fun requestUri request =>
    sub.resultInternal (requestUri.drop uri.length) request

/-- Router::result. -/
def Router.result (r : Router) (req : Request) : ListenerResult :=
  r.resultInternal req.uri req

/-- The canned response for a request parsing error
(src/server/server.rs). -/
def REQUEST_PARSING_ERROR_RESPONSE : List Nat := str2bytes "HTTP/1.1 400 Bad Request\r\n\r\n"

/-- The canned not-found response. -/
def NOT_FOUND_RESPONSE : List Nat := str2bytes "HTTP/1.1 404 Not Found\r\n\r\n"

/-- The errors read_request can report (src/server/connection.rs). -/
inductive ReadRequestError where
  | parseErr (e : ParsingError)
  | ioError (e : IoErr)
deriving DecidableEq, Repr

/-- The result of Connection::read_request. -/
inductive ReadRequestResult where
  | notReady
  | ready (req : Request)
  | error (e : ReadRequestError)
  | closed
deriving DecidableEq, Repr

/-- should_close_after_response: the request headers contain the value
close under connection. -/
def shouldCloseAfterResponse (req : Request) : Bool :=
  containsHeaderValue req.headers CONNECTION (str2bytes "close")

/-- write_response_from_router: the router result decides between a
serialised response and the canned 404.  Response serialisation iterates a
HashMap whose order across names is unspecified, so it enters the model as
the ser parameter. -/
def writeResponseFromRouter (ser : Response → List Nat) (router : Router)
    (req : Request) : List Nat :=
  match router.result req with
  | .sendResponse resp => ser resp
  | .sendResponseArc resp => ser resp
  | .next => NOT_FOUND_RESPONSE

/-- respond_to_requests (src/server/server.rs): repeatedly read a request
and respond.  The successive read_request outcomes of the connection are
the outcomes list; writes accumulate (the model writer does not fail, as
the canned 400 write is best-effort in the source).  Returns the bytes
written and whether the connection must be dropped. -/
def respondToRequests (ser : Response → List Nat) (router : Router) :
    Nat → List ReadRequestResult → Option (List Nat × Bool)
  | 0, _ => none
  | _, [] => none
  | fuel + 1, outcome :: rest =>
    match outcome with
    | .ready req =>
      let written := writeResponseFromRouter ser router req
      if shouldCloseAfterResponse req then some (written, true)
      else
        match respondToRequests ser router fuel rest with
        | some (w, c) => some (written ++ w, c)
        | none => none
    | .notReady => some ([], false)
    | .closed => some ([], true)
    | .error _ => some (REQUEST_PARSING_ERROR_RESPONSE, true)

/-! Claim C1: the buffered-writer content invariant. -/

/-- The failing run for the buffered-writer ordering invariant: capacity 4,
write the bytes of ab, then write the five bytes of cdefg while the inner
writer first blocks the flush of the pending buffer entirely and then
accepts exactly three bytes of the direct write. -/
def c1Run : Option NBW :=
  match nbwWrite 9 [.block, .accept 3, .block] (NBW.withCapacity 4) [97, 98] with
  | some (w1, oracle1, _) => (nbwWrite 9 oracle1 w1 [99, 100, 101, 102, 103]).map (fun p => p.1)
  | none => none

/-- C1: the claimed invariant (bytes delivered to the inner writer followed
by the pending bytes equal the concatenation of all caller writes, in
order) fails on the code: in the run c1Run the caller wrote 97 98 99 100
101 102 103 in order, yet the inner writer received 99 100 101 before the
pending 97 98, so output-so-far concatenated with pending is
99 100 101 97 98 102 103. -/
theorem writer_reorders_on_blocked_flush :
    c1Run = some { buf := [97, 98, 102, 103], pos := 0, cap := 4, out := [99, 100, 101] } ∧
    (c1Run.map fun w => w.out ++ w.pending) = some [99, 100, 101, 97, 98, 102, 103] ∧
    [99, 100, 101, 97, 98, 102, 103] ≠ [97, 98] ++ [99, 100, 101, 102, 103] := by
  refine ⟨rfl, rfl, by decide⟩

/-! Claim C3: the slab free list. -/

/-- A slab holding two values at keys 0 and 1. -/
def c3Slab0 : Slab Nat := (((Slab.withCapacity Nat).insert 10).2.insert 11).2

/-- The same slab after removing key 0 first and key 1 second. -/
def c3Slab1 : Slab Nat := ((c3Slab0.remove 0).2.remove 1).2

/-- C3 counterexample: the free list is not a FIFO queue.  After removing
key 0 first and key 1 second, the next insert reuses key 1 (the index
freed last), not key 0 as the claim states, and the insert after that
reuses key 0. -/
theorem slab_free_list_not_fifo :
    c3Slab1.nextKey = 1 ∧ (c3Slab1.insert 12).1 = 1 ∧ (c3Slab1.insert 12).1 ≠ 0 ∧
    ((c3Slab1.insert 12).2.insert 13).1 = 0 := by
  refine ⟨rfl, rfl, by decide, rfl⟩

/-- C3 amended: the free list of empty slots is a LIFO stack: if two
occupied keys k1 and then k2 are removed, the next insert reuses k2 (the
index freed last), the insert after that reuses k1, and insert appends a
new slot only when the free list is empty. -/
theorem slab_free_list_lifo :
    (∀ {T : Type} (s : Slab T) (k1 k2 : Nat) (v1 v2 : T) (x y : T),
      s.get k1 = some v1 → s.get k2 = some v2 → k1 ≠ k2 →
      (((s.remove k1).2.remove k2).2.insert x).1 = k2 ∧
      ((((s.remove k1).2.remove k2).2.insert x).2.insert y).1 = k1) ∧
    (∀ {T : Type} (s : Slab T) (x : T),
      s.openSlots = [] → (s.insert x).1 = s.data.length) := by
  constructor
  · intro T s k1 k2 v1 v2 x y h1 h2 hne
    have g1 : s.data[k1]? = some (some v1) := by
      simp only [Slab.get] at h1
      cases hk : s.data[k1]? with
      | none => simp [hk] at h1
      | some o => cases o <;> simp_all
    have g2 : s.data[k2]? = some (some v2) := by
      simp only [Slab.get] at h2
      cases hk : s.data[k2]? with
      | none => simp [hk] at h2
      | some o => cases o <;> simp_all
    have g2' : (s.data.set k1 none)[k2]? = some (some v2) := by
      rw [List.getElem?_set_ne (by omega)]
      exact g2
    simp [Slab.remove, Slab.insert, g1, g2']
  · intro T s x h
    simp [Slab.insert, h]

/-- C3 amended witness: the LIFO property and the append property at
concrete inputs. -/
theorem slab_free_list_lifo_witness :
    ((c3Slab0.get 0 = some 10 ∧ c3Slab0.get 1 = some 11 ∧ (0 : Nat) ≠ 1) ∧
      (((c3Slab0.remove 0).2.remove 1).2.insert 12).1 = 1 ∧
      ((((c3Slab0.remove 0).2.remove 1).2.insert 12).2.insert 13).1 = 0) ∧
    ((Slab.withCapacity Nat).openSlots = [] ∧
      ((Slab.withCapacity Nat).insert 7).1 = (Slab.withCapacity Nat).data.length) := by
  refine ⟨⟨⟨rfl, rfl, by decide⟩, ?_⟩, ⟨rfl, ?_⟩⟩
  · exact slab_free_list_lifo.1 c3Slab0 0 1 10 11 12 13 rfl rfl (by decide)
  · exact slab_free_list_lifo.2 (Slab.withCapacity Nat) 7 rfl

/-! Claim C9: header-name equality, hashing and canonicalisation. -/

/-- C9 counterexample: equality of header values is not determined by the
lowercased bytes.  The interned standard connection header and a custom
header carrying the very same lowercase bytes (a value the public
constructor admits) have equal lowercased names but are unequal, and the
derived hashing feeds different sequences for them. -/
theorem header_equality_not_by_lowercase_bytes :
    lowerBytes (Header.standard (str2bytes "connection")).asStr =
      lowerBytes (Header.custom (str2bytes "connection")).asStr ∧
    Header.standard (str2bytes "connection") ≠ Header.custom (str2bytes "connection") ∧
    (Header.standard (str2bytes "connection")).hashFeed ≠
      (Header.custom (str2bytes "connection")).hashFeed ∧
    str2bytes "connection" ∈ standardHeaderNames := by
  refine ⟨rfl, by decide, by decide, by decide⟩

/-- C9 amended: for header names built by the string conversion (the only
construction the parser uses), equality and hashing are determined by the
lowercased bytes, and any string whose lowercase form is in the standard
table yields the interned standard variant, never the custom one. -/
theorem header_from_canonicalisation :
    (∀ s t : List Nat, Header.fromBytes s = Header.fromBytes t ↔ lowerBytes s = lowerBytes t) ∧
    (∀ s t : List Nat, lowerBytes s = lowerBytes t →
      (Header.fromBytes s).hashFeed = (Header.fromBytes t).hashFeed) ∧
    (∀ s : List Nat, lowerBytes s ∈ standardHeaderNames →
      Header.fromBytes s = .standard (lowerBytes s)) := by
  have hiff : ∀ s t : List Nat,
      Header.fromBytes s = Header.fromBytes t ↔ lowerBytes s = lowerBytes t := by
    intro s t
    constructor
    · intro h
      by_cases hs : lowerBytes s ∈ standardHeaderNames <;>
        by_cases ht : lowerBytes t ∈ standardHeaderNames <;>
        simp [Header.fromBytes, hs, ht] at h <;> exact h
    · intro h
      simp [Header.fromBytes, h]
  refine ⟨hiff, ?_, ?_⟩
  · intro s t h
    rw [(hiff s t).mpr h]
  · intro s h
    simp [Header.fromBytes, h]

/-- C9 amended witness: canonicalisation applied to a mixed-case
connection header name. -/
theorem header_from_canonicalisation_witness :
    lowerBytes (str2bytes "CONNECTION") ∈ standardHeaderNames ∧
    Header.fromBytes (str2bytes "CONNECTION") = .standard (lowerBytes (str2bytes "CONNECTION")) ∧
    Header.fromBytes (str2bytes "CONNECTION") = Header.fromBytes (str2bytes "Connection") := by
  refine ⟨by decide, header_from_canonicalisation.2.2 _ (by decide), ?_⟩
  exact (header_from_canonicalisation.1 _ _).mpr (by decide)

/-! Claim C10: extra tokens on the request first line. -/

/-- C10: a first line with more than three space-separated tokens, whose
first token is a recognised method and whose third token is a supported
version, parses to that method and the second token; everything after the
third token is discarded. -/
theorem first_line_extra_tokens_ignored (line m u v : List Nat)
    (rest : List (List Nat)) (meth : Method)
    (hsplit : splitOnSpace line = m :: u :: v :: rest) (_hrest : rest ≠ [])
    (hm : Method.tryFromStr m = some meth) (hv : isSupportedVersion v = true) :
    parseFirstLine line = .ok (meth, u) := by
  unfold parseFirstLine
  rw [hsplit]
  simp [hv, hm]

/-- C10 witness: GET /x HTTP/1.1 followed by two junk tokens parses as a
GET for /x. -/
theorem first_line_extra_tokens_ignored_witness :
    parseFirstLine (str2bytes "GET /x HTTP/1.1 extra junk") = .ok (.GET, str2bytes "/x") :=
  first_line_extra_tokens_ignored (str2bytes "GET /x HTTP/1.1 extra junk")
    (str2bytes "GET") (str2bytes "/x") (str2bytes "HTTP/1.1")
    [str2bytes "extra", str2bytes "junk"] .GET (by decide) (by decide) (by decide) (by decide)

/-! Claim C7: router dispatch. -/

/-- Dispatch as the claim words it: iterate the registered entries in
registration order, keep those whose prefix is a prefix of the URI, invoke
each in order, return the first non-Next result, and Next if every invoked
handler returned Next or none matched. -/
def specDispatch (entries : Router) (u : List Nat) (req : Request) : ListenerResult :=
  ((((entries.filter fun e => e.1.isPrefixOf u).map fun e => e.2 u req).find?
      fun res => decide (res ≠ .next)).getD .next)

/-- C7: router dispatch follows the claimed iteration order and first
non-Next rule, and an entry registered through route strips its URI from
the front of the request URI before dispatching to the sub router. -/
theorem router_dispatch_order_and_stripping :
    (∀ (r : Router) (u : List Nat) (req : Request),
      r.resultInternal u req = specDispatch r u req) ∧
    (∀ (pre : List Nat) (sub : Router) (u : List Nat) (req : Request),
      (Router.new.route pre sub).resultInternal u req =
        if pre.isPrefixOf u then sub.resultInternal (u.drop pre.length) req else .next) := by
  constructor
  · intro r u req
    induction r with
    | nil => rfl
    | cons e rest ih =>
      by_cases hp : e.1.isPrefixOf u
      · cases hres : e.2 u req <;>
          simp [Router.resultInternal, specDispatch, hp, hres, List.find?, ih]
      · simp [Router.resultInternal, specDispatch, hp, ih]
  · intro pre sub u req
    by_cases hp : pre.isPrefixOf u
    · cases hres : sub.resultInternal (u.drop pre.length) req <;>
        simp [Router.new, Router.route, Router.onPre, Router.resultInternal, hp, hres]
    · simp [Router.new, Router.route, Router.onPre, Router.resultInternal, hp]

/-! Claim C8: the canned 400 on a parse error. -/

/-- C8: whenever reading a request yields an error, the request loop
writes exactly the 28 bytes of HTTP/1.1 400 Bad Request followed by two
CRLFs, reports that the connection must be dropped, and never touches the
outcomes that would follow (the parse is not retried): the result does not
depend on the rest of the outcome list. -/
theorem parse_error_writes_canned_400 :
    (∀ (ser : Response → List Nat) (router : Router) (fuel : Nat)
       (e : ReadRequestError) (rest : List ReadRequestResult),
       respondToRequests ser router (fuel + 1) (.error e :: rest) =
         some (REQUEST_PARSING_ERROR_RESPONSE, true)) ∧
    REQUEST_PARSING_ERROR_RESPONSE = str2bytes "HTTP/1.1 400 Bad Request\r\n\r\n" ∧
    REQUEST_PARSING_ERROR_RESPONSE.length = 28 := by
  refine ⟨fun ser router fuel e rest => rfl, rfl, by decide⟩

/-! Claim C6: the Content-Length limits. -/

/-- A header map holding a single content-length entry with the given
value, as the headers parser would produce it. -/
def clHeaders (v : String) : HeaderMap :=
  [(Header.fromBytes (str2bytes "content-length"), [str2bytes v])]

/-- C6: constructing a body parser with Content-Length exactly 3145728
succeeds, 3145729 is rejected at construction with ContentLengthTooLarge,
and a non-numeric value yields InvalidHeaderValue; but the full-length
body does NOT parse: because BytesDeframer::read_so_far returns the
declared size instead of the fill position, every parse call of the
3145728-byte body wraps the reader with a zero remaining budget and fails
with the read-limit-reached error before consuming a single byte, even
though body data is available. -/
theorem content_length_exact_limit_body_unreadable :
    BodyParser.new (clHeaders "3145728") false = .ok (.withSize ⟨3145728, []⟩) ∧
    (∀ fuel : Nat,
      bodyParse (fuel + 1) (.withSize ⟨3145728, []⟩)
          { limits := [], chunks := [[104, 105]], blockWhenEmpty := true } =
        some (.ioErr (.withSize ⟨3145728, []⟩) .limitReached
          { limits := [], chunks := [[104, 105]], blockWhenEmpty := true })) ∧
    BodyParser.new (clHeaders "3145729") false = .error .contentLengthTooLarge ∧
    BodyParser.new (clHeaders "31457x9") false = .error .invalidHeaderValue := by
  refine ⟨rfl, fun fuel => rfl, rfl, rfl⟩

/-! Claim C4: has_data against consumed bytes. -/

/-- C4: has_data is not false exactly when zero bytes were consumed.  On a
reader that delivers the single byte G and then end of file, the request
parser suspends with UnexpectedEof after consuming one byte, yet has_data
on the returned parser state is false: the end-of-file path of
LineDeframer::read pops the one buffered byte from its line even though
that byte is not a newline. -/
theorem has_data_false_after_one_consumed_byte :
    requestParse 9 RequestParser.new
        { limits := [], chunks := [[71], []], blockWhenEmpty := false } =
      some (.ioErr RequestParser.new .unexpectedEof
        { limits := [], chunks := [], blockWhenEmpty := false }) ∧
    hasData RequestParser.new = false ∧
    Rd.bytes { limits := [], chunks := [[71], []], blockWhenEmpty := false } = 1 ∧
    Rd.bytes { limits := [], chunks := [], blockWhenEmpty := false } = 0 := by
  refine ⟨rfl, rfl, rfl, rfl⟩

/-! Claim C2: the headers byte budget.  The lemmas below account for the
bytes a parse call consumes against the limit stack. -/

/-- Total bytes in a chunk list. -/
def chunksBytes (cs : List (List Nat)) : Nat := (cs.map List.length).sum

theorem rd_bytes_eq (r : Rd) : r.bytes = chunksBytes r.chunks := rfl

theorem availLen_le_mem (limits : List Nat) (n : Nat) :
    ∀ l ∈ limits, availLen limits n ≤ l := by
  induction limits with
  | nil => simp
  | cons a as ih =>
    intro l hl
    rcases List.mem_cons.mp hl with h | h
    · subst h; exact min_le_left _ _
    · exact le_trans (min_le_right _ _) (ih l h)

theorem availLen_le (limits : List Nat) (n : Nat) : availLen limits n ≤ n := by
  induction limits with
  | nil => exact le_rfl
  | cons a as ih => exact le_trans (min_le_right _ _) ih

theorem decLimits_zero (limits : List Nat) : decLimits limits 0 = limits := by
  simp [decLimits]

theorem decLimits_add (limits : List Nat) (a b : Nat) :
    decLimits (decLimits limits a) b = decLimits limits (a + b) := by
  simp [decLimits, List.map_map, Function.comp, Nat.sub_sub]

theorem takeLine_eq (l : List Nat) : (takeLine l).1 ++ (takeLine l).2.1 = l := by
  induction l with
  | nil => rfl
  | cons b rest ih =>
    rcases htl : takeLine rest with ⟨t, r, f⟩
    rw [htl] at ih
    by_cases hb : b = 10
    · subst hb; simp [takeLine]
    · simp [takeLine, hb, htl, ih]

theorem takeLine_len_le (l : List Nat) : (takeLine l).1.length ≤ l.length := by
  conv_rhs => rw [← takeLine_eq l]
  simp

/-- The byte accounting of one read_line call: some n bytes are consumed
from the chunks; every limit of the stack decreases by exactly n and
therefore bounds n; the accumulated line grows by exactly n bytes. -/
theorem readLineAux_consume (chunks : List (List Nat)) :
    ∀ (acc limits : List Nat) (blk : Bool),
    ∃ n, (readLineAux acc limits chunks blk).2.1 = decLimits limits n ∧
      (∀ l ∈ limits, n ≤ l) ∧
      chunksBytes chunks = n + chunksBytes (readLineAux acc limits chunks blk).2.2.1 ∧
      (readLineAux acc limits chunks blk).1.length = acc.length + n := by
  induction chunks with
  | nil =>
    intro acc limits blk
    refine ⟨0, ?_⟩
    simp only [readLineAux]
    split_ifs <;> simp [decLimits_zero, chunksBytes]
  | cons c rest ih =>
    intro acc limits blk
    by_cases h0 : (0 : Nat) ∈ limits
    · refine ⟨0, ?_⟩
      simp only [readLineAux, if_pos h0]
      simp [decLimits_zero, chunksBytes]
    by_cases hc : c = []
    · refine ⟨0, ?_⟩
      subst hc
      simp only [readLineAux, if_neg h0, if_pos rfl]
      simp [decLimits_zero, chunksBytes]
    have hstep : readLineAux acc limits (c :: rest) blk =
        (match takeLine (c.take (availLen limits c.length)) with
          | (t, _, true) =>
            (acc ++ t, decLimits limits t.length,
              if c.drop t.length = [] then rest else c.drop t.length :: rest, .ok)
          | (_, _, false) =>
            if (c.take (availLen limits c.length)).length < c.length then
              (acc ++ c.take (availLen limits c.length),
                decLimits limits (c.take (availLen limits c.length)).length,
                c.drop (c.take (availLen limits c.length)).length :: rest, .limitHit)
            else
              readLineAux (acc ++ c) (decLimits limits c.length) rest blk) := by
      simp only [readLineAux, if_neg h0, if_neg hc]
    rcases htl : takeLine (c.take (availLen limits c.length)) with ⟨t, tr, f⟩
    rw [htl] at hstep
    have havl : (c.take (availLen limits c.length)).length ≤ availLen limits c.length := by
      rw [List.length_take]
      exact min_le_left _ _
    cases f with
    | true =>
      dsimp only at hstep
      have htle : t.length ≤ (c.take (availLen limits c.length)).length := by
        have h := takeLine_eq (c.take (availLen limits c.length))
        rw [htl] at h
        dsimp only at h
        have hlen := congrArg List.length h
        rw [List.length_append] at hlen
        omega
      have htc : t.length ≤ c.length :=
        le_trans htle (by simp)
      refine ⟨t.length, ?_⟩
      rw [hstep]
      refine ⟨rfl, ?_, ?_, by simp⟩
      · intro l hl
        exact le_trans htle (le_trans havl (availLen_le_mem limits c.length l hl))
      · by_cases hrem : c.drop t.length = []
        · have hlen : c.length ≤ t.length := by
            have := congrArg List.length hrem
            simp at this
            omega
          have hteq : t.length = c.length := le_antisymm htc hlen
          rw [if_pos hrem]
          simp [chunksBytes, hteq]
        · rw [if_neg hrem]
          simp only [chunksBytes, List.map_cons, List.sum_cons, List.length_drop]
          omega
    | false =>
      dsimp only at hstep
      by_cases htr : (c.take (availLen limits c.length)).length < c.length
      · refine ⟨(c.take (availLen limits c.length)).length, ?_⟩
        rw [hstep, if_pos htr]
        refine ⟨rfl, ?_, ?_, by simp⟩
        · intro l hl
          exact le_trans havl (availLen_le_mem limits c.length l hl)
        · simp only [chunksBytes, List.map_cons, List.sum_cons, List.length_drop]
          omega
      · have hcl : (c.take (availLen limits c.length)).length = c.length := by
          have : (c.take (availLen limits c.length)).length ≤ c.length := by simp
          omega
        have hcle : ∀ l ∈ limits, c.length ≤ l := by
          intro l hl
          have h1 := availLen_le_mem limits c.length l hl
          have h2 : (c.take (availLen limits c.length)).length =
              min (availLen limits c.length) c.length := by simp
          omega
        obtain ⟨n, ih1, ih2, ih3, ih4⟩ := ih (acc ++ c) (decLimits limits c.length) blk
        refine ⟨c.length + n, ?_⟩
        rw [hstep, if_neg htr]
        refine ⟨by rw [ih1, decLimits_add], ?_, ?_, by rw [ih4]; simp [Nat.add_assoc]⟩
        · intro l hl
          have hmem : l - c.length ∈ decLimits limits c.length :=
            List.mem_map.mpr ⟨l, hl, rfl⟩
          have := ih2 _ hmem
          have := hcle l hl
          omega
        · simp only [chunksBytes, List.map_cons, List.sum_cons] at ih3 ⊢
          omega

/-- The reader a parse result carries. -/
def PRes.rd : PRes T S → Rd
  | .done _ r => r
  | .ioErr _ _ r => r
  | .fail _ r => r

/-- The byte accounting of one CrlfLineParser::parse call: the consumed
byte count is bounded by every limit of the incoming reader, and a
finished line of length v consumed exactly v plus the two CRLF bytes
beyond the bytes already buffered. -/
theorem crlfParse_consume (st : List Nat) (r : Rd) :
    ∃ n, (crlfParse st r).rd.limits = decLimits r.limits n ∧
      (∀ l ∈ r.limits, n ≤ l) ∧
      chunksBytes r.chunks = n + chunksBytes (crlfParse st r).rd.chunks ∧
      (crlfParse st r).rd.blockWhenEmpty = r.blockWhenEmpty ∧
      (∀ v r2, crlfParse st r = .done v r2 → v.length + 2 = st.length + n) := by
  obtain ⟨n, h1, h2, h3, h4⟩ :=
    readLineAux_consume r.chunks st ((MAX_LINE_SIZE - st.length) :: r.limits) r.blockWhenEmpty
  rcases hrl : readLineAux st ((MAX_LINE_SIZE - st.length) :: r.limits) r.chunks
      r.blockWhenEmpty with ⟨acc, limits2, chunks2, res⟩
  rw [hrl] at h1 h3 h4
  simp only at h1 h3 h4
  have hlim2 : limits2 = decLimits ((MAX_LINE_SIZE - st.length) :: r.limits) n := h1
  have hbound : ∀ l ∈ r.limits, n ≤ l := fun l hl => h2 l (List.mem_cons_of_mem _ hl)
  have htail : limits2.tail = decLimits r.limits n := by
    rw [hlim2]; rfl
  refine ⟨n, ?_⟩
  cases res with
  | ok =>
    by_cases hlast : acc.getLast? = some 10
    · by_cases hcr : acc.dropLast.getLast? = some 13
      · have hcrl : crlfParse st r =
            .done acc.dropLast.dropLast
              { limits := limits2.tail, chunks := chunks2, blockWhenEmpty := r.blockWhenEmpty } := by
          simp [crlfParse, lineDeframerRead, Rd.push, hrl, hlast, parseCrlfLine, hcr, Rd.pop]
        rw [hcrl]
        refine ⟨htail, hbound, h3, rfl, ?_⟩
        intro v r2 hv
        cases hv
        have hne1 : acc ≠ [] := by
          intro h; rw [h] at hlast; simp at hlast
        have hne2 : acc.dropLast ≠ [] := by
          intro h; rw [h] at hcr; simp at hcr
        have l1 : acc.dropLast.length + 1 = acc.length := by
          rcases List.eq_nil_or_concat acc with h | ⟨ys, y, h⟩
          · exact absurd h hne1
          · subst h; simp
        have l2 : acc.dropLast.dropLast.length + 1 = acc.dropLast.length := by
          rcases List.eq_nil_or_concat acc.dropLast with h | ⟨ys, y, h⟩
          · exact absurd h hne2
          · rw [h]; simp
        omega
      · have hcrl : crlfParse st r =
            .fail .badSyntax
              { limits := limits2.tail, chunks := chunks2, blockWhenEmpty := r.blockWhenEmpty } := by
          simp [crlfParse, lineDeframerRead, Rd.push, hrl, hlast, parseCrlfLine, hcr, Rd.pop]
        rw [hcrl]
        exact ⟨htail, hbound, h3, rfl, by intro v r2 h; simp at h⟩
    · have hcrl : crlfParse st r =
          .ioErr acc.dropLast .unexpectedEof
            { limits := limits2.tail, chunks := chunks2, blockWhenEmpty := r.blockWhenEmpty } := by
        simp [crlfParse, lineDeframerRead, Rd.push, hrl, hlast, Rd.pop]
      rw [hcrl]
      exact ⟨htail, hbound, h3, rfl, by intro v r2 h; simp at h⟩
  | blocked =>
    have hcrl : crlfParse st r =
        .ioErr acc .wouldBlock
          { limits := limits2.tail, chunks := chunks2, blockWhenEmpty := r.blockWhenEmpty } := by
      simp [crlfParse, lineDeframerRead, Rd.push, hrl, Rd.pop]
    rw [hcrl]
    exact ⟨htail, hbound, h3, rfl, by intro v r2 h; simp at h⟩
  | limitHit =>
    have hcrl : crlfParse st r =
        .ioErr acc .limitReached
          { limits := limits2.tail, chunks := chunks2, blockWhenEmpty := r.blockWhenEmpty } := by
      simp [crlfParse, lineDeframerRead, Rd.push, hrl, Rd.pop]
    rw [hcrl]
    exact ⟨htail, hbound, h3, rfl, by intro v r2 h; simp at h⟩

/-- The byte accounting of the headers loop: the call consumes n bytes
bounded by every incoming limit, and when it finishes, the final
cumulative line size is bounded by the starting one plus the buffered
line plus the consumed bytes, minus the two bytes of the final CRLF. -/
theorem headersLoop_consume :
    ∀ (fuel : Nat) (headers : HeaderMap) (read : Nat) (inner : List Nat) (r : Rd)
      (res : PRes (HeaderMap × Nat) HState),
    headersLoop fuel headers read inner r = some res →
    ∃ n, res.rd.limits = decLimits r.limits n ∧
      (∀ l ∈ r.limits, n ≤ l) ∧
      chunksBytes r.chunks = n + chunksBytes res.rd.chunks ∧
      (∀ hm read2 r2, res = .done (hm, read2) r2 → read2 + 2 ≤ read + inner.length + n) := by
  intro fuel
  induction fuel with
  | zero => intro headers read inner r res h; cases h
  | succ fuel ih =>
    intro headers read inner r res h
    obtain ⟨n1, c1, c2, c3, c4, c5⟩ := crlfParse_consume inner r
    simp only [headersLoop] at h
    rcases hc : crlfParse inner r with ⟨line, r1⟩ | ⟨st2, e, r1⟩ | ⟨e, r1⟩ <;>
      rw [hc] at h c1 c3 c4 <;> dsimp only [PRes.rd] at h c1 c3 c4
    · have hlen := c5 line r1 hc
      by_cases hline : line = []
      · rw [if_pos hline] at h
        cases h
        refine ⟨n1, ?_⟩
        simp only [PRes.rd]
        refine ⟨c1, c2, c3, ?_⟩
        intro hm read2 r2 hres
        cases hres
        subst hline
        simp at hlen
        omega
      · rw [if_neg hline] at h
        rcases hph : parseHeader line with ⟨e⟩ | ⟨hv⟩
        · rw [hph] at h
          cases h
          exact ⟨n1, by simp only [PRes.rd]; exact ⟨c1, c2, c3, by intro hm read2 r2 hres; simp at hres⟩⟩
        · rw [hph] at h
          obtain ⟨n2, d1, d2, d3, d4⟩ :=
            ih (addHeader headers hv.1 hv.2) (read + line.length) [] r1 res h
          refine ⟨n1 + n2, ?_, ?_, ?_, ?_⟩
          · rw [d1, c1, decLimits_add]
          · intro l hl
            have h1 := c2 l hl
            have h2 := d2 (l - n1) (by rw [c1]; exact List.mem_map.mpr ⟨l, hl, rfl⟩)
            omega
          · rw [c3, d3]; omega
          · intro hm read2 r2 hres
            have := d4 hm read2 r2 hres
            simp at this
            omega
    · cases h
      exact ⟨n1, by simp only [PRes.rd]; exact ⟨c1, c2, c3, by intro hm read2 r2 hres; simp at hres⟩⟩
    · cases h
      exact ⟨n1, by simp only [PRes.rd]; exact ⟨c1, c2, c3, by intro hm read2 r2 hres; simp at hres⟩⟩

/-- C2 amended: when a fresh headers parser finishes within a single parse
call, the bytes consumed from the reader are at most 4096 and the sum of
the stripped header-line sizes (the final cumulative counter) is at most
4094.  The original 4096 bound on total consumption under arbitrary
WouldBlock suspensions fails, as the companion counterexample shows: each
completed header leaks its two CRLF bytes past the budget accounting. -/
theorem headers_single_call_within_budget (fuel : Nat) (r : Rd) (hm : HeaderMap)
    (read2 : Nat) (r2 : Rd)
    (h : headersParse fuel HState.new r = some (.done (hm, read2) r2)) :
    r2.bytes ≤ r.bytes ∧ r.bytes - r2.bytes ≤ MAX_HEADERS_SIZE ∧
      read2 + 2 ≤ MAX_HEADERS_SIZE := by
  simp only [headersParse, HState.new] at h
  rcases hl : headersLoop fuel [] 0 [] (Rd.push (MAX_HEADERS_SIZE - 0) r) with _ | res
  · rw [hl] at h; cases h
  rw [hl] at h
  obtain ⟨n, d1, d2, d3, d4⟩ := headersLoop_consume fuel [] 0 [] _ res hl
  have hb : n ≤ MAX_HEADERS_SIZE := by
    have := d2 (MAX_HEADERS_SIZE - 0) (by simp [Rd.push])
    omega
  rcases res with ⟨⟨hm3, read3⟩, r3⟩ | ⟨st3, e3, r3⟩ | ⟨e3, r3⟩
  · simp only [Option.some.injEq, PRes.done.injEq, Prod.mk.injEq] at h
    obtain ⟨⟨hhm, hread⟩, hr2⟩ := h
    have hrd : (PRes.done (T := HeaderMap × Nat) (S := HState) (hm3, read3) r3).rd = r3 := rfl
    rw [hrd] at d1 d3
    have hread3 := d4 hm3 read3 r3 rfl
    simp only [List.length_nil] at hread3
    simp only [Rd.push, chunksBytes] at d3
    subst hr2
    refine ⟨?_, ?_, by omega⟩ <;>
      simp only [Rd.bytes, Rd.pop, chunksBytes] <;> omega
  · simp only at h; cases h
  · simp only at h; cases h

/-- The single-call witness input: one full header and the final empty
line, all available at once. -/
def c2SingleRd : Rd :=
  { limits := [], chunks := [str2bytes "header: value\r\n\r\n"], blockWhenEmpty := true }

/-- C2 amended witness: the single-call bound applied to a concrete
one-header parse, whose header-line sum is 13. -/
theorem headers_single_call_within_budget_witness :
    c2SingleRd.bytes - ((Rd.mk [] [] true).bytes) ≤ MAX_HEADERS_SIZE ∧
      (13 : Nat) + 2 ≤ MAX_HEADERS_SIZE := by
  have h : headersParse 9 HState.new c2SingleRd =
      some (.done ([(Header.custom (str2bytes "header"), [str2bytes "value"])], 13)
        (Rd.mk [] [] true)) := by rfl
  exact ⟨(headers_single_call_within_budget 9 c2SingleRd _ 13 _ h).2.1,
    (headers_single_call_within_budget 9 c2SingleRd _ 13 _ h).2.2⟩

/-- One 512-byte header line: a name of one byte, the colon-space, 507
filler bytes and the CRLF; its stripped size is 510. -/
def hline : List Nat := str2bytes "a: " ++ List.replicate 507 120 ++ [13, 10]

/-- Eight parse calls that each deliver one full 512-byte header line and
then block, followed by a ninth call delivering the final empty line. -/
def headersCalls : List (List (List Nat)) :=
  List.replicate 8 [hline] ++ [[[13, 10]]]

/-- Drive a headers parser through successive parse calls in the manner of
the repository test harness: each call appends fresh chunks to an
otherwise drained blocking reader; WouldBlock suspensions carry the parser
state to the next call.  Returns the total bytes consumed and the final
cumulative line size when some call finishes. -/
def driveHeaders : Nat → HState → List (List (List Nat)) → Nat → Option (Nat × Nat)
  | _, _, [], _ => none
  | fuel, st, c :: rest, acc =>
    let r : Rd := { limits := [], chunks := c, blockWhenEmpty := true }
    match headersParse fuel st r with
    | some (.done (_, read) r2) => some (acc + (r.bytes - r2.bytes), read)
    | some (.ioErr st2 .wouldBlock r2) => driveHeaders fuel st2 rest (acc + (r.bytes - r2.bytes))
    | _ => none

set_option maxRecDepth 40000 in
/-- C2 counterexample: a successfully parsed headers section that consumes
4098 bytes from the reader, exceeding the claimed 4096 bound.  Eight
512-byte header lines arrive one per parse call with WouldBlock
suspensions between them; the per-call budget of 4096 minus the completed
stripped line sizes never counts the two CRLF bytes of each completed
header, so the nine calls together consume 8 times 512 plus 2 bytes. -/
theorem headers_consumption_exceeds_budget :
    driveHeaders 20 HState.new headersCalls 0 ≠ none ∧
    (driveHeaders 20 HState.new headersCalls 0).map Prod.fst = some 4098 ∧
    4098 > MAX_HEADERS_SIZE := by
  refine ⟨by decide, by decide, by decide⟩

/-! Claim C5: the chunked-transfer-encoding body.  The lemmas track where
newlines can sit in buffered line state and how runs extend when more data
follows the terminating chunk. -/

theorem takeLine_found (l : List Nat) (h : (takeLine l).2.2 = true) :
    (takeLine l).1.getLast? = some 10 ∧ 10 ∉ (takeLine l).1.dropLast := by
  induction l with
  | nil => simp [takeLine] at h
  | cons b rest ih =>
    by_cases hb : b = 10
    · subst hb; simp [takeLine]
    · rcases htl : takeLine rest with ⟨t, r, f⟩
      rw [takeLine, if_neg hb, htl] at h ⊢
      simp only at h
      rw [htl] at ih
      obtain ⟨ih1, ih2⟩ := ih h
      simp only at ih1 ih2
      have htne : t ≠ [] := by
        intro he; rw [he] at ih1; simp at ih1
      rcases List.eq_nil_or_concat t with he | ⟨ys, y, he⟩
      · exact absurd he htne
      subst he
      simp only [List.concat_eq_append] at ih1 ih2 ⊢
      have hy : y = 10 := by
        rw [List.getLast?_concat] at ih1
        simpa using ih1
      rw [List.dropLast_concat] at ih2
      constructor
      · rw [show b :: (ys ++ [y]) = (b :: ys) ++ [y] from rfl, List.getLast?_concat, hy]
      · rw [show b :: (ys ++ [y]) = (b :: ys) ++ [y] from rfl, List.dropLast_concat]
        simp only [List.mem_cons, not_or]
        exact ⟨fun he2 => hb he2.symm, ih2⟩

theorem takeLine_none (l : List Nat) (h : (takeLine l).2.2 = false) :
    (takeLine l).1 = l ∧ 10 ∉ l := by
  induction l with
  | nil => simp [takeLine]
  | cons b rest ih =>
    by_cases hb : b = 10
    · subst hb; rw [takeLine, if_pos rfl] at h; simp at h
    · rcases htl : takeLine rest with ⟨t, r, f⟩
      rw [takeLine, if_neg hb, htl] at h ⊢
      simp only at h
      rw [htl] at ih
      obtain ⟨ih1, ih2⟩ := ih h
      simp only at ih1
      refine ⟨by rw [ih1], ?_⟩
      simp only [List.mem_cons, not_or]
      exact ⟨fun he => hb he.symm, ih2⟩

/-- Where newlines can sit after a read_line call: a line finished by a
found newline or end of file has none before its final byte, and a
suspended line has none at all. -/
theorem readLineAux_nl (chunks : List (List Nat)) :
    ∀ (acc limits : List Nat) (blk : Bool), 10 ∉ acc →
    ((readLineAux acc limits chunks blk).2.2.2 = .ok →
      10 ∉ (readLineAux acc limits chunks blk).1.dropLast) ∧
    ((readLineAux acc limits chunks blk).2.2.2 ≠ .ok →
      10 ∉ (readLineAux acc limits chunks blk).1) := by
  induction chunks with
  | nil =>
    intro acc limits blk hacc
    simp only [readLineAux]
    split_ifs <;>
      exact ⟨fun _ => fun hm => hacc (List.dropLast_subset _ hm), fun _ => hacc⟩
  | cons c rest ih =>
    intro acc limits blk hacc
    by_cases h0 : (0 : Nat) ∈ limits
    · simp only [readLineAux, if_pos h0]
      exact And.intro (fun h => nomatch h) (fun _ => hacc)
    by_cases hc : c = []
    · subst hc
      simp only [readLineAux, if_neg h0, if_pos rfl]
      exact ⟨fun _ hm => hacc (List.dropLast_subset _ hm), fun _ => hacc⟩
    have hstep : readLineAux acc limits (c :: rest) blk =
        (match takeLine (c.take (availLen limits c.length)) with
          | (t, _, true) =>
            (acc ++ t, decLimits limits t.length,
              if c.drop t.length = [] then rest else c.drop t.length :: rest, .ok)
          | (_, _, false) =>
            if (c.take (availLen limits c.length)).length < c.length then
              (acc ++ c.take (availLen limits c.length),
                decLimits limits (c.take (availLen limits c.length)).length,
                c.drop (c.take (availLen limits c.length)).length :: rest, .limitHit)
            else
              readLineAux (acc ++ c) (decLimits limits c.length) rest blk) := by
      simp only [readLineAux, if_neg h0, if_neg hc]
    rcases htl : takeLine (c.take (availLen limits c.length)) with ⟨t, tr, f⟩
    rw [htl] at hstep
    cases f with
    | true =>
      dsimp only at hstep
      obtain ⟨hlast, hmid⟩ := takeLine_found _ (by rw [htl])
      rw [htl] at hlast hmid
      simp only at hlast hmid
      rw [hstep]
      have htne : t ≠ [] := by
        intro he; rw [he] at hlast; simp at hlast
      refine ⟨fun _ => ?_, by intro h; simp at h⟩
      rw [List.dropLast_append_of_ne_nil _ htne]
      simp only [List.mem_append, not_or]
      exact ⟨hacc, hmid⟩
    | false =>
      dsimp only at hstep
      obtain ⟨hteq, hnone⟩ := takeLine_none _ (by rw [htl])
      by_cases htr : (c.take (availLen limits c.length)).length < c.length
      · rw [hstep, if_pos htr]
        refine And.intro (fun h => nomatch h) (fun _ => ?_)
        simp only [List.mem_append, not_or]
        exact ⟨hacc, hnone⟩
      · rw [hstep, if_neg htr]
        have hcall : c.take (availLen limits c.length) = c := by
          apply List.take_of_length_le
          have : (c.take (availLen limits c.length)).length =
              min (availLen limits c.length) c.length := by simp
          omega
        have hcnl : 10 ∉ c := by rw [← hcall]; exact hnone
        exact ih (acc ++ c) (decLimits limits c.length) blk
          (by simp only [List.mem_append, not_or]; exact ⟨hacc, hcnl⟩)

/-- Suspended CRLF line parsers never hold a newline in their buffered
line. -/
theorem crlfParse_nl (st : List Nat) (r : Rd) (h10 : 10 ∉ st) :
    ∀ st2 e r2, crlfParse st r = .ioErr st2 e r2 → 10 ∉ st2 := by
  intro st2 e r2 h
  obtain ⟨hok, hnot⟩ :=
    readLineAux_nl r.chunks st ((MAX_LINE_SIZE - st.length) :: r.limits) r.blockWhenEmpty h10
  rcases hrl : readLineAux st ((MAX_LINE_SIZE - st.length) :: r.limits) r.chunks
      r.blockWhenEmpty with ⟨acc, limits2, chunks2, res⟩
  rw [hrl] at hok hnot
  simp only at hok hnot
  cases res with
  | ok =>
    by_cases hlast : acc.getLast? = some 10
    · by_cases hcr : acc.dropLast.getLast? = some 13 <;>
        simp [crlfParse, lineDeframerRead, Rd.push, hrl, hlast, parseCrlfLine, hcr, Rd.pop] at h
    · simp only [crlfParse, lineDeframerRead, Rd.push, hrl, hlast, Rd.pop, if_neg hlast] at h
      have := hok rfl
      cases h
      exact this
  | blocked =>
    simp only [crlfParse, lineDeframerRead, Rd.push, hrl, Rd.pop] at h
    have := hnot (by simp)
    cases h
    exact this
  | limitHit =>
    simp only [crlfParse, lineDeframerRead, Rd.push, hrl, Rd.pop] at h
    have := hnot (by simp)
    cases h
    exact this

/-- A reader with further data appended after its current chunks. -/
def Rd.addChunks (r : Rd) (extra : List (List Nat)) : Rd :=
  { r with chunks := r.chunks ++ extra }

theorem mem_of_getLast?_eq {l : List Nat} {a : Nat} (h : l.getLast? = some a) : a ∈ l := by
  obtain ⟨hne, heq⟩ := List.mem_getLast?_eq_getLast (show a ∈ l.getLast? by rw [h]; rfl)
  rw [heq]
  exact List.getLast_mem hne

/-- A read_line call that finds its newline inside the available data is
oblivious to chunks appended behind the reader. -/
theorem readLineAux_append (chunks : List (List Nat)) :
    ∀ (acc limits : List Nat) (blk : Bool) (extra : List (List Nat)), 10 ∉ acc →
    (readLineAux acc limits chunks blk).2.2.2 = .ok →
    (readLineAux acc limits chunks blk).1.getLast? = some 10 →
    readLineAux acc limits (chunks ++ extra) blk =
      ((readLineAux acc limits chunks blk).1, (readLineAux acc limits chunks blk).2.1,
        (readLineAux acc limits chunks blk).2.2.1 ++ extra, .ok) := by
  induction chunks with
  | nil =>
    intro acc limits blk extra hacc hok hlast
    simp only [readLineAux] at hok hlast
    split_ifs at hok hlast
    exact absurd (mem_of_getLast?_eq hlast) hacc
  | cons c rest ih =>
    intro acc limits blk extra hacc hok hlast
    by_cases h0 : (0 : Nat) ∈ limits
    · simp only [readLineAux, if_pos h0] at hok
      simp at hok
    by_cases hc : c = []
    · subst hc
      simp only [readLineAux, if_neg h0, if_pos rfl] at hlast
      exact absurd (mem_of_getLast?_eq hlast) hacc
    have hstep : readLineAux acc limits (c :: rest) blk =
        (match takeLine (c.take (availLen limits c.length)) with
          | (t, _, true) =>
            (acc ++ t, decLimits limits t.length,
              if c.drop t.length = [] then rest else c.drop t.length :: rest, .ok)
          | (_, _, false) =>
            if (c.take (availLen limits c.length)).length < c.length then
              (acc ++ c.take (availLen limits c.length),
                decLimits limits (c.take (availLen limits c.length)).length,
                c.drop (c.take (availLen limits c.length)).length :: rest, .limitHit)
            else
              readLineAux (acc ++ c) (decLimits limits c.length) rest blk) := by
      simp only [readLineAux, if_neg h0, if_neg hc]
    have hstep2 : readLineAux acc limits (c :: (rest ++ extra)) blk =
        (match takeLine (c.take (availLen limits c.length)) with
          | (t, _, true) =>
            (acc ++ t, decLimits limits t.length,
              if c.drop t.length = [] then rest ++ extra
              else c.drop t.length :: (rest ++ extra), .ok)
          | (_, _, false) =>
            if (c.take (availLen limits c.length)).length < c.length then
              (acc ++ c.take (availLen limits c.length),
                decLimits limits (c.take (availLen limits c.length)).length,
                c.drop (c.take (availLen limits c.length)).length :: (rest ++ extra), .limitHit)
            else
              readLineAux (acc ++ c) (decLimits limits c.length) (rest ++ extra) blk) := by
      simp only [readLineAux, if_neg h0, if_neg hc]
    rcases htl : takeLine (c.take (availLen limits c.length)) with ⟨t, tr, f⟩
    rw [htl] at hstep hstep2
    cases f with
    | true =>
      dsimp only at hstep hstep2
      rw [show (c :: rest) ++ extra = c :: (rest ++ extra) from rfl, hstep2, hstep]
      by_cases hrem : c.drop t.length = [] <;> simp [hrem]
    | false =>
      dsimp only at hstep hstep2
      by_cases htr : (c.take (availLen limits c.length)).length < c.length
      · rw [hstep, if_pos htr] at hok
        simp at hok
      · rw [hstep, if_neg htr] at hok hlast ⊢
        rw [show (c :: rest) ++ extra = c :: (rest ++ extra) from rfl, hstep2, if_neg htr]
        have hcall : c.take (availLen limits c.length) = c := by
          apply List.take_of_length_le
          have : (c.take (availLen limits c.length)).length =
              min (availLen limits c.length) c.length := by simp
          omega
        obtain ⟨hteq, hnone⟩ := takeLine_none _ (by rw [htl])
        have hcnl : 10 ∉ c := by rw [← hcall]; exact hnone
        exact ih (acc ++ c) (decLimits limits c.length) blk extra
          (by simp only [List.mem_append, not_or]; exact ⟨hacc, hcnl⟩) hok hlast

/-- A finished CRLF line parse is oblivious to appended chunks. -/
theorem crlfParse_append (st : List Nat) (r : Rd) (v : List Nat) (r2 : Rd)
    (extra : List (List Nat)) (h10 : 10 ∉ st) (h : crlfParse st r = .done v r2) :
    crlfParse st (r.addChunks extra) = .done v (r2.addChunks extra) := by
  rcases hrl : readLineAux st ((MAX_LINE_SIZE - st.length) :: r.limits) r.chunks
      r.blockWhenEmpty with ⟨acc, limits2, chunks2, res⟩
  cases res with
  | ok =>
    by_cases hlast : acc.getLast? = some 10
    · by_cases hcr : acc.dropLast.getLast? = some 13
      · have happ := readLineAux_append r.chunks st ((MAX_LINE_SIZE - st.length) :: r.limits)
          r.blockWhenEmpty extra h10 (by rw [hrl]) (by rw [hrl]; exact hlast)
        rw [hrl] at happ
        simp only at happ
        have hv : crlfParse st r =
            .done acc.dropLast.dropLast
              { limits := limits2.tail, chunks := chunks2, blockWhenEmpty := r.blockWhenEmpty } := by
          simp [crlfParse, lineDeframerRead, Rd.push, hrl, hlast, parseCrlfLine, hcr, Rd.pop]
        rw [hv] at h
        simp only [PRes.done.injEq] at h
        obtain ⟨hv1, hv2⟩ := h
        simp only [crlfParse, lineDeframerRead, Rd.push, Rd.addChunks, happ, hlast,
          parseCrlfLine, hcr, Rd.pop, if_pos]
        rw [← hv1, ← hv2]
      · have hv : crlfParse st r =
            .fail .badSyntax
              { limits := limits2.tail, chunks := chunks2, blockWhenEmpty := r.blockWhenEmpty } := by
          simp [crlfParse, lineDeframerRead, Rd.push, hrl, hlast, parseCrlfLine, hcr, Rd.pop]
        rw [hv] at h
        cases h
    · have hv : crlfParse st r =
          .ioErr acc.dropLast .unexpectedEof
            { limits := limits2.tail, chunks := chunks2, blockWhenEmpty := r.blockWhenEmpty } := by
        simp [crlfParse, lineDeframerRead, Rd.push, hrl, hlast, Rd.pop]
      rw [hv] at h
      cases h
  | blocked =>
    have hv : crlfParse st r =
        .ioErr acc .wouldBlock
          { limits := limits2.tail, chunks := chunks2, blockWhenEmpty := r.blockWhenEmpty } := by
      simp [crlfParse, lineDeframerRead, Rd.push, hrl, Rd.pop]
    rw [hv] at h
    cases h
  | limitHit =>
    have hv : crlfParse st r =
        .ioErr acc .limitReached
          { limits := limits2.tail, chunks := chunks2, blockWhenEmpty := r.blockWhenEmpty } := by
      simp [crlfParse, lineDeframerRead, Rd.push, hrl, Rd.pop]
    rw [hv] at h
    cases h

theorem etRead_len (k : Nat) (r : Rd) (bs : List Nat) (r1 : Rd)
    (h : etRead k r = .ok (bs, r1)) : bs.length ≤ k := by
  by_cases h0 : (0 : Nat) ∈ r.limits
  · simp [etRead, h0] at h
  rcases hch : r.chunks with _ | ⟨c, rest⟩
  · rcases hb : r.blockWhenEmpty with _ | _
    · simp [etRead, h0, hch, hb] at h
      rw [h.1]
      simp
    · simp [etRead, h0, hch, hb] at h
  by_cases hc : c = []
  · subst hc
    simp [etRead, h0, hch] at h
    rw [h.1]
    simp
  · simp only [etRead, if_neg h0, hch, if_neg hc] at h
    simp only [Except.ok.injEq, Prod.mk.injEq] at h
    obtain ⟨hbs, _⟩ := h
    have h1 : (c.take (min (availLen r.limits k) c.length)).length ≤
        min (availLen r.limits k) c.length := by simp
    have h2 := availLen_le r.limits k
    rw [← hbs]
    have : (c.take (min (availLen r.limits k) c.length)).length ≤ availLen r.limits k := by
      omega
    omega

theorem etRead_append (k : Nat) (r : Rd) (bs : List Nat) (r1 : Rd)
    (extra : List (List Nat)) (h : etRead k r = .ok (bs, r1)) (hne : bs ≠ []) :
    etRead k (r.addChunks extra) = .ok (bs, r1.addChunks extra) := by
  by_cases h0 : (0 : Nat) ∈ r.limits
  · simp [etRead, h0] at h
  rcases hch : r.chunks with _ | ⟨c, rest⟩
  · rcases hb : r.blockWhenEmpty with _ | _
    · simp [etRead, h0, hch, hb] at h
      exact absurd h.1 hne
    · simp [etRead, h0, hch, hb] at h
  by_cases hc : c = []
  · subst hc
    simp [etRead, h0, hch] at h
    exact absurd h.1 hne
  · simp only [etRead, if_neg h0, hch, if_neg hc] at h
    simp only [Except.ok.injEq, Prod.mk.injEq] at h
    obtain ⟨hbs, hr1⟩ := h
    simp only [etRead, Rd.addChunks, if_neg h0, hch, List.cons_append, if_neg hc]
    rw [← hr1, ← hbs]
    by_cases hrem : c.drop (min (availLen r.limits k) c.length) = [] <;>
      simp [hrem]

theorem bytesRead_done_len (fuel : Nat) :
    ∀ (d : BytesDf) (r : Rd) (v : List Nat) (r1 : Rd), d.got.length ≤ d.size →
    bytesRead fuel d r = some (.done v r1) → v.length = d.size := by
  induction fuel with
  | zero => intro d r v r1 _ h; cases h
  | succ fuel ih =>
    intro d r v r1 hle h
    by_cases hlt : d.got.length < d.size
    · simp only [bytesRead, if_pos hlt] at h
      rcases he : etRead (d.size - d.got.length) r with e | ⟨bs, r2⟩ <;> rw [he] at h
      · dsimp only at h; simp at h
      rcases hbs : bs with _ | ⟨b, brest⟩
      · subst hbs; dsimp only at h; simp at h
      subst hbs
      dsimp only at h
      have hlen := etRead_len _ _ _ _ he
      refine ih ⟨d.size, d.got ++ b :: brest⟩ r2 v r1 ?_ h
      simp only [List.length_append]
      omega
    · simp only [bytesRead, if_neg hlt] at h
      simp only [Option.some.injEq, DfRes.done.injEq] at h
      obtain ⟨hv, _⟩ := h
      rw [← hv]
      omega

theorem bytesRead_ioErr_inv (fuel : Nat) :
    ∀ (d : BytesDf) (r : Rd) (d' : BytesDf) (e : IoErr) (r1 : Rd), d.got.length ≤ d.size →
    bytesRead fuel d r = some (.ioErr d' e r1) →
    d'.got.length ≤ d'.size ∧ d'.size = d.size := by
  induction fuel with
  | zero => intro d r d' e r1 _ h; cases h
  | succ fuel ih =>
    intro d r d' e r1 hle h
    by_cases hlt : d.got.length < d.size
    · simp only [bytesRead, if_pos hlt] at h
      rcases he : etRead (d.size - d.got.length) r with e2 | ⟨bs, r2⟩ <;> rw [he] at h
      · dsimp only at h
        simp only [Option.some.injEq, DfRes.ioErr.injEq] at h
        obtain ⟨hd, _, _⟩ := h
        rw [← hd]
        exact ⟨hle, rfl⟩
      rcases hbs : bs with _ | ⟨b, brest⟩
      · subst hbs
        dsimp only at h
        simp only [Option.some.injEq, DfRes.ioErr.injEq] at h
        obtain ⟨hd, _, _⟩ := h
        rw [← hd]
        exact ⟨hle, rfl⟩
      subst hbs
      dsimp only at h
      have hlen := etRead_len _ _ _ _ he
      have := ih _ r2 d' e r1 (by simp only [List.length_append]; omega) h
      exact ⟨this.1, this.2⟩
    · simp only [bytesRead, if_neg hlt] at h
      simp at h

theorem bytesRead_append (fuel : Nat) :
    ∀ (d : BytesDf) (r : Rd) (v : List Nat) (r1 : Rd) (extra : List (List Nat)),
    bytesRead fuel d r = some (.done v r1) →
    bytesRead fuel d (r.addChunks extra) = some (.done v (r1.addChunks extra)) := by
  induction fuel with
  | zero => intro d r v r1 extra h; cases h
  | succ fuel ih =>
    intro d r v r1 extra h
    by_cases hlt : d.got.length < d.size
    · simp only [bytesRead, if_pos hlt] at h ⊢
      rcases he : etRead (d.size - d.got.length) r with e | ⟨bs, r2⟩ <;> rw [he] at h
      · dsimp only at h; simp at h
      rcases hbs : bs with _ | ⟨b, brest⟩
      · subst hbs; dsimp only at h; simp at h
      subst hbs
      dsimp only at h
      rw [etRead_append _ _ _ _ extra he (by simp)]
      exact ih ⟨d.size, d.got ++ b :: brest⟩ r2 v r1 extra h
    · simp only [bytesRead, if_neg hlt] at h ⊢
      simp only [Option.some.injEq, DfRes.done.injEq] at h
      obtain ⟨hv, hr⟩ := h
      rw [hv, hr]

/-- The reachable-state invariant of the chunked parser, relating the
accumulated body, the ghost list of declared sizes and the machine state:
a zero declared size can only ever sit at the end of the ghost list, where
it marks the terminating chunk. -/
def ChunksInv : ChunksSt → Prop
  | ⟨body, sizes, .size cst⟩ => 10 ∉ cst ∧ body.length = sizes.sum ∧ (∀ s ∈ sizes, 0 < s)
  | ⟨body, sizes, .data d⟩ => d.got.length ≤ d.size ∧ body.length + d.size = sizes.sum ∧
      sizes.getLast? = some d.size ∧ (∀ s ∈ sizes.dropLast, 0 < s)
  | ⟨body, sizes, .tailingCrlf cst isLast⟩ => 10 ∉ cst ∧ body.length = sizes.sum ∧
      sizes ≠ [] ∧ (isLast = true ↔ sizes.getLast? = some 0) ∧ (∀ s ∈ sizes.dropLast, 0 < s)
  | ⟨body, sizes, .finished⟩ => body.length = sizes.sum ∧ sizes.getLast? = some 0 ∧
      (∀ s ∈ sizes.dropLast, 0 < s)

/-- **C5.** For every chunked body parsed successfully from any invariant
state (in particular a fresh parser), the length of the returned body equals
the sum of the declared chunk sizes, the last declared size is zero and every
earlier declared size is positive — so parsing terminates exactly at the
chunk whose declared size was zero, and an empty data chunk cannot arise
earlier — and any data appended to the reader after the terminating empty
line is left unconsumed, the parse result unchanged.  Suspended (WouldBlock)
parses preserve the invariant, so the statement covers any number of
suspensions and resumptions. -/
theorem chunked_parse_properties :
    ∀ (fuel : Nat) (cs : ChunksSt) (r : Rd), ChunksInv cs →
    (∀ body sizes r2, chunksLoop fuel cs r = some (.done (body, sizes) r2) →
      body.length = sizes.sum ∧ sizes.getLast? = some 0 ∧
      (∀ s ∈ sizes.dropLast, 0 < s) ∧
      (∀ extra, chunksLoop fuel cs (r.addChunks extra) =
        some (.done (body, sizes) (r2.addChunks extra)))) ∧
    (∀ cs2 e r2, chunksLoop fuel cs r = some (.ioErr cs2 e r2) → ChunksInv cs2) := by
  intro fuel
  induction fuel with
  | zero =>
    intro cs r _
    exact And.intro (fun body sizes r2 h => nomatch h) (fun cs2 e r2 h => nomatch h)
  | succ fuel ih =>
    rintro ⟨b0, s0, st⟩ r hInv
    cases st with
    | size cst =>
      obtain ⟨hnl, hsum, hpos⟩ := hInv
      rcases hcp : crlfParse cst r with ⟨raw, r1⟩ | ⟨st2, e, r1⟩ | ⟨e, r1⟩
      · rcases hps : parseChunkSize raw with ⟨e⟩ | ⟨n⟩
        · have hstep : chunksLoop (fuel + 1) ⟨b0, s0, .size cst⟩ r = some (.fail e r1) := by
            simp only [chunksLoop, hcp, hps]
          constructor
          · intro body sizes r2 h
            rw [hstep] at h
            simp at h
          · intro cs2 e2 r2 h
            rw [hstep] at h
            simp at h
        · have hstep : chunksLoop (fuel + 1) ⟨b0, s0, .size cst⟩ r =
              chunksLoop fuel ⟨b0, s0 ++ [n], .data ⟨n, []⟩⟩ r1 := by
            simp only [chunksLoop, hcp, hps]
          have hInv2 : ChunksInv ⟨b0, s0 ++ [n], .data ⟨n, []⟩⟩ := by
            refine ⟨by simp, by simp [hsum], by simp, ?_⟩
            rw [List.dropLast_concat]
            exact hpos
          obtain ⟨ihd, ihe⟩ := ih ⟨b0, s0 ++ [n], .data ⟨n, []⟩⟩ r1 hInv2
          constructor
          · intro body sizes r2 h
            rw [hstep] at h
            obtain ⟨p1, p2, p3, p4⟩ := ihd body sizes r2 h
            refine ⟨p1, p2, p3, ?_⟩
            intro extra
            have hcp2 := crlfParse_append cst r raw r1 extra hnl hcp
            have hstep2 : chunksLoop (fuel + 1) ⟨b0, s0, .size cst⟩ (r.addChunks extra) =
                chunksLoop fuel ⟨b0, s0 ++ [n], .data ⟨n, []⟩⟩ (r1.addChunks extra) := by
              simp only [chunksLoop, hcp2, hps]
            rw [hstep2]
            exact p4 extra
          · intro cs2 e2 r2 h
            rw [hstep] at h
            exact ihe cs2 e2 r2 h
      · have hstep : chunksLoop (fuel + 1) ⟨b0, s0, .size cst⟩ r =
            some (.ioErr ⟨b0, s0, .size st2⟩ e r1) := by
          simp only [chunksLoop, hcp]
        constructor
        · intro body sizes r2 h
          rw [hstep] at h
          simp at h
        · intro cs2 e2 r2 h
          rw [hstep] at h
          simp only [Option.some.injEq, PRes.ioErr.injEq] at h
          obtain ⟨hcs, _, _⟩ := h
          rw [← hcs]
          exact ⟨crlfParse_nl cst r hnl st2 e r1 hcp, hsum, hpos⟩
      · have hstep : chunksLoop (fuel + 1) ⟨b0, s0, .size cst⟩ r = some (.fail e r1) := by
          simp only [chunksLoop, hcp]
        constructor
        · intro body sizes r2 h
          rw [hstep] at h
          simp at h
        · intro cs2 e2 r2 h
          rw [hstep] at h
          simp at h
    | data d =>
      obtain ⟨hgle, hsum, hlast, hpos⟩ := hInv
      rcases hbr : bytesRead (fuel + 1) d r with _ | res
      · have hstep : chunksLoop (fuel + 1) ⟨b0, s0, .data d⟩ r = none := by
          simp only [chunksLoop, hbr]
        constructor
        · intro body sizes r2 h
          rw [hstep] at h
          simp at h
        · intro cs2 e2 r2 h
          rw [hstep] at h
          simp at h
      · rcases res with ⟨bytes, r1⟩ | ⟨d2, e, r1⟩
        · have hblen : bytes.length = d.size := bytesRead_done_len (fuel + 1) d r bytes r1 hgle hbr
          have hstep : chunksLoop (fuel + 1) ⟨b0, s0, .data d⟩ r =
              chunksLoop fuel ⟨b0 ++ bytes, s0, .tailingCrlf [] (bytes = [])⟩ r1 := by
            simp only [chunksLoop, hbr]
          have hsne : s0 ≠ [] := by
            intro he
            rw [he] at hlast
            simp at hlast
          have hInv2 : ChunksInv ⟨b0 ++ bytes, s0, .tailingCrlf [] (bytes = [])⟩ := by
            refine ⟨by simp, ?_, hsne, ?_, hpos⟩
            · simp only [List.length_append, hblen]
              omega
            · constructor
              · intro hd
                have hbe : bytes = [] := of_decide_eq_true hd
                have hz : d.size = 0 := by
                  rw [← hblen, hbe]
                  rfl
                rw [hlast, hz]
              · intro h0
                rw [hlast] at h0
                have hz : d.size = 0 := by
                  simpa using h0
                have : bytes = [] := by
                  have := hblen
                  rw [hz] at this
                  exact List.length_eq_zero.mp this
                simp [this]
          obtain ⟨ihd2, ihe2⟩ := ih ⟨b0 ++ bytes, s0, .tailingCrlf [] (bytes = [])⟩ r1 hInv2
          constructor
          · intro body sizes r2 h
            rw [hstep] at h
            obtain ⟨p1, p2, p3, p4⟩ := ihd2 body sizes r2 h
            refine ⟨p1, p2, p3, ?_⟩
            intro extra
            have hbr2 := bytesRead_append (fuel + 1) d r bytes r1 extra hbr
            have hstep2 : chunksLoop (fuel + 1) ⟨b0, s0, .data d⟩ (r.addChunks extra) =
                chunksLoop fuel ⟨b0 ++ bytes, s0, .tailingCrlf [] (bytes = [])⟩
                  (r1.addChunks extra) := by
              simp only [chunksLoop, hbr2]
            rw [hstep2]
            exact p4 extra
          · intro cs2 e2 r2 h
            rw [hstep] at h
            exact ihe2 cs2 e2 r2 h
        · have hstep : chunksLoop (fuel + 1) ⟨b0, s0, .data d⟩ r =
              some (.ioErr ⟨b0, s0, .data d2⟩ e r1) := by
            simp only [chunksLoop, hbr]
          constructor
          · intro body sizes r2 h
            rw [hstep] at h
            simp at h
          · intro cs2 e2 r2 h
            rw [hstep] at h
            simp only [Option.some.injEq, PRes.ioErr.injEq] at h
            obtain ⟨hcs, _, _⟩ := h
            rw [← hcs]
            obtain ⟨hd1, hd2sz⟩ := bytesRead_ioErr_inv (fuel + 1) d r d2 e r1 hgle hbr
            exact ⟨hd1, by rw [hd2sz]; exact hsum, by rw [hd2sz]; exact hlast, hpos⟩
    | tailingCrlf cst isLast =>
      obtain ⟨hnl, hsum, hsne, hiff, hpos⟩ := hInv
      rcases hcp : crlfParse cst r with ⟨line, r1⟩ | ⟨st2, e, r1⟩ | ⟨e, r1⟩
      · by_cases hline : line = []
        · cases isLast with
          | true =>
            have hstep : chunksLoop (fuel + 1) ⟨b0, s0, .tailingCrlf cst true⟩ r =
                chunksLoop fuel ⟨b0, s0, .finished⟩ r1 := by
              simp [chunksLoop, hcp, hline]
            have hInv2 : ChunksInv ⟨b0, s0, .finished⟩ :=
              ⟨hsum, hiff.mp rfl, hpos⟩
            obtain ⟨ihd2, ihe2⟩ := ih ⟨b0, s0, .finished⟩ r1 hInv2
            constructor
            · intro body sizes r2 h
              rw [hstep] at h
              obtain ⟨p1, p2, p3, p4⟩ := ihd2 body sizes r2 h
              refine ⟨p1, p2, p3, ?_⟩
              intro extra
              have hcp2 := crlfParse_append cst r line r1 extra hnl hcp
              have hstep2 : chunksLoop (fuel + 1) ⟨b0, s0, .tailingCrlf cst true⟩
                  (r.addChunks extra) = chunksLoop fuel ⟨b0, s0, .finished⟩
                  (r1.addChunks extra) := by
                simp [chunksLoop, hcp2, hline]
              rw [hstep2]
              exact p4 extra
            · intro cs2 e2 r2 h
              rw [hstep] at h
              exact ihe2 cs2 e2 r2 h
          | false =>
            have hstep : chunksLoop (fuel + 1) ⟨b0, s0, .tailingCrlf cst false⟩ r =
                chunksLoop fuel ⟨b0, s0, .size []⟩ r1 := by
              simp [chunksLoop, hcp, hline]
            have hglne : ¬s0.getLast? = some 0 := by
              intro hcon
              have := hiff.mpr hcon
              simp at this
            have hposAll : ∀ s ∈ s0, 0 < s := by
              intro s hs
              have hdecomp := List.dropLast_append_getLast hsne
              rw [← hdecomp] at hs
              rcases List.mem_append.mp hs with hmem | hmem
              · exact hpos s hmem
              · have hseq : s = s0.getLast hsne := by simpa using hmem
                have hgl : s0.getLast? = some (s0.getLast hsne) :=
                  List.getLast?_eq_getLast s0 hsne
                rcases Nat.eq_zero_or_pos s with hz | hp
                · exfalso
                  apply hglne
                  rw [hgl, ← hseq, hz]
                · exact hp
            have hInv2 : ChunksInv ⟨b0, s0, .size []⟩ := ⟨by simp, hsum, hposAll⟩
            obtain ⟨ihd2, ihe2⟩ := ih ⟨b0, s0, .size []⟩ r1 hInv2
            constructor
            · intro body sizes r2 h
              rw [hstep] at h
              obtain ⟨p1, p2, p3, p4⟩ := ihd2 body sizes r2 h
              refine ⟨p1, p2, p3, ?_⟩
              intro extra
              have hcp2 := crlfParse_append cst r line r1 extra hnl hcp
              have hstep2 : chunksLoop (fuel + 1) ⟨b0, s0, .tailingCrlf cst false⟩
                  (r.addChunks extra) = chunksLoop fuel ⟨b0, s0, .size []⟩
                  (r1.addChunks extra) := by
                simp [chunksLoop, hcp2, hline]
              rw [hstep2]
              exact p4 extra
            · intro cs2 e2 r2 h
              rw [hstep] at h
              exact ihe2 cs2 e2 r2 h
        · have hstep : chunksLoop (fuel + 1) ⟨b0, s0, .tailingCrlf cst isLast⟩ r =
              some (.fail .badSyntax r1) := by
            simp only [chunksLoop, hcp, if_neg hline]
          constructor
          · intro body sizes r2 h
            rw [hstep] at h
            simp at h
          · intro cs2 e2 r2 h
            rw [hstep] at h
            simp at h
      · have hstep : chunksLoop (fuel + 1) ⟨b0, s0, .tailingCrlf cst isLast⟩ r =
            some (.ioErr ⟨b0, s0, .tailingCrlf st2 isLast⟩ e r1) := by
          simp only [chunksLoop, hcp]
        constructor
        · intro body sizes r2 h
          rw [hstep] at h
          simp at h
        · intro cs2 e2 r2 h
          rw [hstep] at h
          simp only [Option.some.injEq, PRes.ioErr.injEq] at h
          obtain ⟨hcs, _, _⟩ := h
          rw [← hcs]
          exact ⟨crlfParse_nl cst r hnl st2 e r1 hcp, hsum, hsne, hiff, hpos⟩
      · have hstep : chunksLoop (fuel + 1) ⟨b0, s0, .tailingCrlf cst isLast⟩ r =
            some (.fail e r1) := by
          simp only [chunksLoop, hcp]
        constructor
        · intro body sizes r2 h
          rw [hstep] at h
          simp at h
        · intro cs2 e2 r2 h
          rw [hstep] at h
          simp at h
    | finished =>
      obtain ⟨hsum, hlast, hpos⟩ := hInv
      have hstep : chunksLoop (fuel + 1) ⟨b0, s0, .finished⟩ r =
          some (.done (b0, s0) r) := by
        simp only [chunksLoop]
      constructor
      · intro body sizes r2 h
        rw [hstep] at h
        simp only [Option.some.injEq, PRes.done.injEq, Prod.mk.injEq] at h
        obtain ⟨⟨hb, hs⟩, hr⟩ := h
        subst hb
        subst hs
        subst hr
        refine ⟨hsum, hlast, hpos, ?_⟩
        intro extra
        simp only [chunksLoop]
      · intro cs2 e2 r2 h
        rw [hstep] at h
        simp at h

/-- The C5 witness input: one single-byte chunk followed by the zero-size
terminating chunk and its empty line. -/
def c5Rd : Rd :=
  { limits := [], chunks := [str2bytes "1\r\na\r\n0\r\n\r\n"], blockWhenEmpty := false }

/-- C5 witness: the theorem applied to a fresh parser reading a concrete
two-chunk stream, yielding body "a" with declared sizes [1, 0]. -/
theorem chunked_parse_properties_witness :
    ([97] : List Nat).length = List.sum [1, 0] ∧ List.getLast? [1, 0] = some 0 ∧
      (∀ s ∈ List.dropLast [1, 0], 0 < s) ∧
      (∀ extra, chunksLoop 20 ChunksSt.new (c5Rd.addChunks extra) =
        some (.done ([97], [1, 0])
          ((Rd.mk [] [] false).addChunks extra))) :=
  (chunked_parse_properties 20 ChunksSt.new c5Rd
      (by exact ⟨by simp, rfl, by simp⟩)).1
    [97] [1, 0] (Rd.mk [] [] false) (by decide)

end RecipeBox
